import Mathlib

/-!
Verification of the RLM (Recursive Language Model) execution engine,
a TypeScript implementation.  The definitions below are a shallow
embedding of the source files:

* `src/src/utils/parsing.ts`       — code-block extraction, terminating
  markers, result formatting (`findCodeBlocks`, `findFinalAnswer`,
  `formatIteration`, `formatExecutionResult`);
* `src/unnamed/part_002`           — `filterSensitiveKeys`;
* `src/unnamed/part_001`           — `UsageTracker`, `LMHandler`
  (model routing, direct completion path);
* `src/unnamed/part_000`           — `LocalSandbox.executeCode`
  (structured-output parsing of the child interpreter's stdout);
* `src/unnamed/part_003`           — prompt construction
  (`buildRlmSystemPrompt`, `buildUserPrompt`);
* `src/src/core/rlm.ts`            — the iteration driver (`RLM.completion`,
  `RLM.defaultAnswer`) and its metadata / iteration logging;
* `src/src/logger/rlm-logger.ts`   — `RLMLogger` (metadata emitted at most
  once, iteration records).

Strings are modelled as Lean `String`/`List Char`; JavaScript regular
expressions are embedded as explicit backtracking scanners that follow the
engine's greedy/lazy preference order; machine clock readings
(`performance.now`) are not modelled (no claim mentions durations).
-/

namespace RLMTS

/- ───────────────────────── basic string helpers ───────────────────────── -/

/-- Whitespace as matched by the JavaScript `\s` class and by
`String.prototype.trim`, restricted to the ASCII range (space, tab, line
feed, vertical tab, form feed, carriage return).  The non-ASCII Unicode
whitespace code points are never produced by this development. -/
def isWsChar (c : Char) : Bool :=
  c = ' ' || c = '\t' || c = '\n' || c = '\r' || c = '\x0b' || c = '\x0c'

/-- Repack a character list as a string. -/
def listToStr (l : List Char) : String := ⟨l⟩

/-- JavaScript `String.prototype.trimEnd` on a character list. -/
def trimEndL (l : List Char) : List Char :=
  (l.reverse.dropWhile isWsChar).reverse

/-- JavaScript `String.prototype.trim` on a character list. -/
def trimL (l : List Char) : List Char :=
  ((l.dropWhile isWsChar).reverse.dropWhile isWsChar).reverse

/-- JavaScript `String.prototype.trim`. -/
def jsTrim (s : String) : String := listToStr (trimL s.toList)

/-- Does `p` occur as a prefix of `s`?  (Decidable, structural.) -/
def startsWithL : List Char → List Char → Bool
  | [], _ => true
  | _ :: _, [] => false
  | p :: ps, c :: cs => p = c && startsWithL ps cs

/-- First index at which `pat` occurs in the remaining hay, offset by `i`. -/
def findSubAux (pat : List Char) : List Char → Nat → Option Nat
  | [], i => if startsWithL pat [] then some i else none
  | c :: cs, i =>
    if startsWithL pat (c :: cs) then some i else findSubAux pat cs (i + 1)

/-- First index at which `pat` occurs in `hay` (leftmost occurrence),
matching the search order of JavaScript regex literals / `indexOf`. -/
def findSub (pat hay : List Char) : Option Nat := findSubAux pat hay 0

/-- JavaScript `String.prototype.includes`. -/
def containsSub (hay pat : String) : Bool := (findSub pat.toList hay.toList).isSome

/-- JavaScript `String.prototype.toLowerCase`, ASCII fragment (the
configuration-bag keys this engine handles are ASCII identifiers). -/
def jsToLower (s : String) : String := listToStr (s.toList.map Char.toLower)

/- ──────────────── `filterSensitiveKeys` (src/unnamed/part_002) ─────────── -/

/-- A configuration key is dropped when its lowercased name contains both
`"api"` and `"key"`, or contains `"secret"`, or contains both `"token"`
and `"auth"` (the three `continue` guards of `filterSensitiveKeys`). -/
def sensitiveKey (key : String) : Bool :=
  let lower := jsToLower key
  (containsSub lower "api" && containsSub lower "key") ||
  containsSub lower "secret" ||
  (containsSub lower "token" && containsSub lower "auth")

/-- `filterSensitiveKeys` of `src/unnamed/part_002`: iterate over the
entries of the configuration bag, skipping sensitive keys and copying all
other entries unchanged, in order. -/
def filterSensitiveKeys {V : Type} : List (String × V) → List (String × V)
  | [] => []
  | (k, v) :: rest =>
    if sensitiveKey k then filterSensitiveKeys rest
    else (k, v) :: filterSensitiveKeys rest

/- ──────────────────── `UsageTracker` (src/unnamed/part_001) ────────────── -/

structure ModelUsageSummary where
  totalCalls : Nat
  totalInputTokens : Nat
  totalOutputTokens : Nat
deriving DecidableEq

/-- JavaScript `Map.set`: later bindings shadow earlier ones, so we cons
and look up the most recent binding. -/
def setEntry (m : List (String × Nat)) (k : String) (v : Nat) :
    List (String × Nat) :=
  (k, v) :: m

/-- `map.get(k) ?? 0`. -/
def getEntry (m : List (String × Nat)) (k : String) : Nat :=
  (List.lookup k m).getD 0

/-- The `UsageTracker` private state: per-model call counts and token
totals plus the most recently tracked token pair. -/
structure UsageTracker where
  callCounts : List (String × Nat)
  inputTokens : List (String × Nat)
  outputTokens : List (String × Nat)
  lastInputTokens : Nat
  lastOutputTokens : Nat

/-- Field initialisers of `UsageTracker`: empty maps, `lastInputTokens = 0`,
`lastOutputTokens = 0`. -/
def UsageTracker.init : UsageTracker := ⟨[], [], [], 0, 0⟩

/-- `UsageTracker.track`. -/
def UsageTracker.track (t : UsageTracker) (model : String)
    (input output : Nat) : UsageTracker :=
  { callCounts := setEntry t.callCounts model (getEntry t.callCounts model + 1)
    inputTokens := setEntry t.inputTokens model (getEntry t.inputTokens model + input)
    outputTokens := setEntry t.outputTokens model (getEntry t.outputTokens model + output)
    lastInputTokens := input
    lastOutputTokens := output }

/-- `UsageTracker.getLastUsage`: always reports `totalCalls = 1` together
with the last tracked token pair. -/
def UsageTracker.getLastUsage (t : UsageTracker) : ModelUsageSummary :=
  ⟨1, t.lastInputTokens, t.lastOutputTokens⟩

/- ─────────────── `LMHandler` model routing (src/unnamed/part_001) ──────── -/

/-- The routing-relevant state of `LMHandler`: the default (root) model,
the optional sub-model, and the registered-name map.  The model type is
abstract (`α`); `registerModel` conses, and lookups take the most recent
binding, matching JavaScript `Map` semantics. -/
structure LMHandlerState (α : Type) where
  defaultModel : α
  subModel : Option α
  models : List (String × α)

/-- `LMHandler.registerModel`. -/
def registerModel {α : Type} (h : LMHandlerState α) (name : String) (m : α) :
    LMHandlerState α :=
  { h with models := (name, m) :: h.models }

/-- `LMHandler.getModel`:

    if (modelName && this.models.has(modelName)) return this.models.get(modelName)!;
    if (depth === 1 && this.subModel) return this.subModel;
    return this.defaultModel;

`modelName &&` is JavaScript truthiness: an absent name *and* the empty
string both fail the first guard. -/
def getModel {α : Type} (h : LMHandlerState α) (modelName : Option String)
    (depth : Nat) : α :=
  match modelName with
  | some n =>
    if n ≠ "" && (List.lookup n h.models).isSome then
      (List.lookup n h.models).getD h.defaultModel
    else if depth = 1 && h.subModel.isSome then h.subModel.getD h.defaultModel
    else h.defaultModel
  | none =>
    if depth = 1 && h.subModel.isSome then h.subModel.getD h.defaultModel
    else h.defaultModel

/-- `LMHandler.completion` (the driver's direct, non-HTTP path) selects its
model as `this.getModel(modelName)`, leaving `depth` at its default 0. -/
def completionModelChoice {α : Type} (h : LMHandlerState α)
    (modelName : Option String) : α :=
  getModel h modelName 0

/-- Modelled from the amended claim wording for C5: a supplied *nonempty*
name that is registered wins; an empty or unregistered name falls through
to the depth rule (`depth = 1` with a sub-model present), else the default
model. -/
def routeModelAmendedSpec {α : Type} (h : LMHandlerState α)
    (modelName : Option String) (depth : Nat) : α :=
  match modelName.bind (fun n => if n = "" then none else List.lookup n h.models) with
  | some m => m
  | none =>
    match depth, h.subModel with
    | 1, some s => s
    | _, _ => h.defaultModel

/-- Modelled from the claim wording for C10: the direct completion path
only ever returns an explicitly registered model (under a nonempty
supplied name) or the default model — never the depth-selected sub-model. -/
def directPathSpec {α : Type} (h : LMHandlerState α)
    (modelName : Option String) : α :=
  match modelName.bind (fun n => if n = "" then none else List.lookup n h.models) with
  | some m => m
  | none => h.defaultModel

/- ────────────────────────── theorems: C8, C9, C5, C10 ──────────────────── -/

/-- **C8** (confirmed).  For every configuration bag, the sanitized bag
produced by `filterSensitiveKeys` contains exactly those entries whose
lowercased key does not both contain "api" and "key", does not contain
"secret", and does not both contain "token" and "auth"; the values of
every retained key are unchanged (entries are kept verbatim). -/
theorem claim_C8 {V : Type} (kwargs : List (String × V)) (k : String) (v : V) :
    (k, v) ∈ filterSensitiveKeys kwargs ↔
      ((k, v) ∈ kwargs ∧ sensitiveKey k = false) := by
  induction kwargs with
  | nil => simp [filterSensitiveKeys]
  | cons kv rest ih =>
    obtain ⟨k', v'⟩ := kv
    by_cases hs : sensitiveKey k'
    · simp only [filterSensitiveKeys, if_pos hs, ih, List.mem_cons]
      constructor
      · rintro ⟨hm, hnot⟩
        exact ⟨Or.inr hm, hnot⟩
      · rintro ⟨hm | hm, hnot⟩
        · cases hm
          rw [hs] at hnot
          cases hnot
        · exact ⟨hm, hnot⟩
    · simp only [filterSensitiveKeys, if_neg hs, List.mem_cons, ih]
      constructor
      · rintro (he | ⟨hm, hnot⟩)
        · cases he
          exact ⟨Or.inl rfl, by simpa using hs⟩
        · exact ⟨Or.inr hm, hnot⟩
      · rintro ⟨he | hm, hnot⟩
        · cases he
          exact Or.inl rfl
        · exact Or.inr ⟨hm, hnot⟩

/-- **C9** (confirmed).  `getLastUsage` on a tracker that has not recorded
any call returns `totalCalls = 1` with zero input and output tokens, which
is exactly the summary returned after a genuine call that consumed zero
tokens — the two states are indistinguishable through `getLastUsage`. -/
theorem claim_C9 :
    UsageTracker.init.getLastUsage = ⟨1, 0, 0⟩ ∧
    ∀ model : String,
      (UsageTracker.init.track model 0 0).getLastUsage =
        UsageTracker.init.getLastUsage :=
  ⟨rfl, fun _ => rfl⟩

/-- Handler used to refute C5 as stated: a model registered under the empty
name is unreachable because `modelName &&` treats `""` as absent. -/
def c5Handler : LMHandlerState String :=
  { defaultModel := "root", subModel := none, models := [("", "ghost")] }

/-- **C5 counterexample.**  The claim says an explicitly supplied model
name that matches a registered model is always used.  Supplying the name
`""` — registered, mapping to `"ghost"` — yields the default model
`"root"` instead, because the JavaScript guard `modelName && …` treats the
empty string as falsy. -/
theorem claim_C5_cex :
    List.lookup "" c5Handler.models = some "ghost" ∧
    getModel c5Handler (some "") 0 = "root" ∧
    ("root" : String) ≠ "ghost" :=
  ⟨rfl, rfl, by decide⟩

/-- **C5** (corrected).  Model selection for a router hook request follows
the amended rule: a *nonempty* explicitly supplied name that matches a
registered model wins; otherwise (name absent, empty, or unregistered) the
sub-model is used exactly when `depth = 1` and a sub-model was supplied;
otherwise the default model. -/
theorem claim_C5 {α : Type} (h : LMHandlerState α)
    (modelName : Option String) (depth : Nat) :
    getModel h modelName depth = routeModelAmendedSpec h modelName depth := by
  cases modelName with
  | none =>
    cases hs : h.subModel with
    | none =>
      simp only [getModel, routeModelAmendedSpec, Option.bind, hs]
      cases depth with
      | zero => simp
      | succ d =>
        cases d with
        | zero => simp
        | succ d => simp
    | some s =>
      simp only [getModel, routeModelAmendedSpec, Option.bind, hs]
      cases depth with
      | zero => simp
      | succ d =>
        cases d with
        | zero => simp
        | succ d => simp [Nat.succ_ne_zero]
  | some n =>
    by_cases hn : n = ""
    · subst hn
      cases hs : h.subModel with
      | none =>
        simp only [getModel, routeModelAmendedSpec, Option.bind, hs]
        cases depth with
        | zero => simp
        | succ d =>
          cases d with
          | zero => simp
          | succ d => simp
      | some s =>
        simp only [getModel, routeModelAmendedSpec, Option.bind, hs]
        cases depth with
        | zero => simp
        | succ d =>
          cases d with
          | zero => simp
          | succ d => simp
    · cases hl : List.lookup n h.models with
      | none =>
        cases hs : h.subModel with
        | none =>
          simp only [getModel, routeModelAmendedSpec, Option.bind, hs, hl, hn]
          cases depth with
          | zero => simp
          | succ d =>
            cases d with
            | zero => simp
            | succ d => simp
        | some s =>
          simp only [getModel, routeModelAmendedSpec, Option.bind, hs, hl, hn]
          cases depth with
          | zero => simp
          | succ d =>
            cases d with
            | zero => simp
            | succ d => simp
      | some m =>
        simp [getModel, routeModelAmendedSpec, Option.bind, hl, hn]

/-- **C10** (confirmed).  The driver's direct (non-HTTP) completion path
resolves the model at depth 0, so the depth-based sub-model rule can never
fire there: the chosen model is the explicitly registered one (for a
nonempty supplied name) or the default model.  The sub-model can therefore
only be obtained through a hook request carrying `depth = 1` or through an
explicitly registered name. -/
theorem claim_C10 {α : Type} (h : LMHandlerState α)
    (modelName : Option String) :
    completionModelChoice h modelName = directPathSpec h modelName := by
  cases modelName with
  | none =>
    cases hs : h.subModel with
    | none => simp [completionModelChoice, getModel, directPathSpec, Option.bind, hs]
    | some s => simp [completionModelChoice, getModel, directPathSpec, Option.bind, hs]
  | some n =>
    by_cases hn : n = ""
    · subst hn
      cases hs : h.subModel with
      | none => simp [completionModelChoice, getModel, directPathSpec, Option.bind, hs]
      | some s => simp [completionModelChoice, getModel, directPathSpec, Option.bind, hs]
    · cases hl : List.lookup n h.models with
      | none =>
        cases hs : h.subModel with
        | none => simp [completionModelChoice, getModel, directPathSpec, Option.bind, hs, hl, hn]
        | some s => simp [completionModelChoice, getModel, directPathSpec, Option.bind, hs, hl, hn]
      | some m =>
        simp [completionModelChoice, getModel, directPathSpec, Option.bind, hl, hn]

/- ───────────────────────── JSON values (JVal) ─────────────────────────── -/

/-- JSON values, as produced by `JSON.parse` in the sandbox result-parsing
path.  Numbers are kept as their source lexeme: no verified claim inspects
a numeric value, only the shape of the parsed record matters. -/
inductive JVal where
  | jnull
  | jbool (b : Bool)
  | jnum (lex : String)
  | jstr (s : String)
  | jarr (xs : List JVal)
  | jobj (fields : List (String × JVal))

/-- Whitespace accepted between JSON tokens by `JSON.parse`
(space, tab, line feed, carriage return). -/
def jsonWs (c : Char) : Bool :=
  c = ' ' || c = '\t' || c = '\n' || c = '\r'

def isJDigit (c : Char) : Bool := '0' ≤ c && c ≤ '9'

def hexVal (c : Char) : Option Nat :=
  if '0' ≤ c && c ≤ '9' then some (c.toNat - 48)
  else if 'a' ≤ c && c ≤ 'f' then some (c.toNat - 87)
  else if 'A' ≤ c && c ≤ 'F' then some (c.toNat - 55)
  else none

/-- Body of a JSON string literal (after the opening quote): returns the
decoded characters and the remaining input after the closing quote.
Unescaped control characters are rejected, as in `JSON.parse`.  Lone
surrogate escapes fall back to the null character (Lean `Char` carries
scalar values only); no claim depends on them. -/
def parseStrBody : Nat → List Char → Option (List Char × List Char)
  | 0, _ => none
  | _ + 1, [] => none
  | fuel + 1, c :: cs =>
    if c = '"' then some ([], cs)
    else if c = '\\' then
      match cs with
      | [] => none
      | e :: cs' =>
        if e = '"' || e = '\\' || e = '/' then
          (parseStrBody fuel cs').map (fun p => (e :: p.1, p.2))
        else if e = 'b' then
          (parseStrBody fuel cs').map (fun p => ('\x08' :: p.1, p.2))
        else if e = 'f' then
          (parseStrBody fuel cs').map (fun p => ('\x0c' :: p.1, p.2))
        else if e = 'n' then
          (parseStrBody fuel cs').map (fun p => ('\n' :: p.1, p.2))
        else if e = 'r' then
          (parseStrBody fuel cs').map (fun p => ('\r' :: p.1, p.2))
        else if e = 't' then
          (parseStrBody fuel cs').map (fun p => ('\t' :: p.1, p.2))
        else if e = 'u' then
          match cs' with
          | h1 :: h2 :: h3 :: h4 :: cs'' =>
            match hexVal h1, hexVal h2, hexVal h3, hexVal h4 with
            | some a, some b, some c', some d =>
              (parseStrBody fuel cs'').map
                (fun p => (Char.ofNat (((a * 16 + b) * 16 + c') * 16 + d) :: p.1, p.2))
            | _, _, _, _ => none
          | _ => none
        else none
    else if c.toNat < 0x20 then none
    else (parseStrBody fuel cs).map (fun p => (c :: p.1, p.2))

/-- JSON number lexeme: `-? (0 | [1-9][0-9]*) (.[0-9]+)? ([eE][+-]?[0-9]+)?`.
Returns the lexeme characters and the remaining input. -/
def parseNumLex (cs : List Char) : Option (List Char × List Char) :=
  let (sign, cs1) :=
    match cs with
    | '-' :: r => (['-'], r)
    | _ => (([] : List Char), cs)
  match cs1 with
  | [] => none
  | c :: r =>
    if c = '0' then
      match fracExp r with
      | some (fe, rest) => some (sign ++ ['0'] ++ fe, rest)
      | none => none
    else if isJDigit c then
      let ds := r.takeWhile isJDigit
      let r' := r.dropWhile isJDigit
      match fracExp r' with
      | some (fe, rest) => some (sign ++ (c :: ds) ++ fe, rest)
      | none => none
    else none
where
  fracExp (cs : List Char) : Option (List Char × List Char) :=
    let (fracPart, cs2) :=
      match cs with
      | '.' :: r =>
        let ds := r.takeWhile isJDigit
        if ds.isEmpty then (none, cs)
        else (some ('.' :: ds), r.dropWhile isJDigit)
      | _ => (none, cs)
    match fracPart, cs2 with
    | none, '.' :: _ => none
    | fp, cs2 =>
      match cs2 with
      | e :: r =>
        if e = 'e' || e = 'E' then
          let (sgn, r1) :=
            match r with
            | '+' :: r' => (['+'], r')
            | '-' :: r' => (['-'], r')
            | _ => (([] : List Char), r)
          let ds := r1.takeWhile isJDigit
          if ds.isEmpty then none
          else some ((fp.getD []) ++ (e :: (sgn ++ ds)), r1.dropWhile isJDigit)
        else some (fp.getD [], cs2)
      | [] => some (fp.getD [], cs2)

mutual

/-- A JSON value, with leading inter-token whitespace skipped. -/
def parseJ : Nat → List Char → Option (JVal × List Char)
  | 0, _ => none
  | fuel + 1, cs =>
    let cs := cs.dropWhile jsonWs
    if startsWithL "null".toList cs then some (.jnull, cs.drop 4)
    else if startsWithL "true".toList cs then some (.jbool true, cs.drop 4)
    else if startsWithL "false".toList cs then some (.jbool false, cs.drop 5)
    else
      match cs with
      | [] => none
      | c :: rest =>
        if c = '"' then
          (parseStrBody (fuel + 1) rest).map (fun p => (.jstr (listToStr p.1), p.2))
        else if c = '[' then
          let rest' := rest.dropWhile jsonWs
          match rest' with
          | ']' :: r => some (.jarr [], r)
          | _ => parseArrItems fuel [] rest
        else if c = '{' then
          let rest' := rest.dropWhile jsonWs
          match rest' with
          | '}' :: r => some (.jobj [], r)
          | _ => parseObjItems fuel [] rest
        else if c = '-' || isJDigit c then
          (parseNumLex cs).map (fun p => (.jnum (listToStr p.1), p.2))
        else none

/-- Comma-separated JSON array items up to the closing bracket. -/
def parseArrItems : Nat → List JVal → List Char → Option (JVal × List Char)
  | 0, _, _ => none
  | fuel + 1, acc, cs =>
    match parseJ fuel cs with
    | none => none
    | some (v, rest) =>
      let rest := rest.dropWhile jsonWs
      match rest with
      | ',' :: r => parseArrItems fuel (v :: acc) r
      | ']' :: r => some (.jarr (v :: acc).reverse, r)
      | _ => none

/-- Comma-separated JSON object members up to the closing brace. -/
def parseObjItems : Nat → List (String × JVal) → List Char →
    Option (JVal × List Char)
  | 0, _, _ => none
  | fuel + 1, acc, cs =>
    let cs := cs.dropWhile jsonWs
    match cs with
    | '"' :: r =>
      match parseStrBody (fuel + 1) r with
      | none => none
      | some (key, rest) =>
        let rest := rest.dropWhile jsonWs
        match rest with
        | ':' :: r2 =>
          match parseJ fuel r2 with
          | none => none
          | some (v, rest2) =>
            let rest2 := rest2.dropWhile jsonWs
            match rest2 with
            | ',' :: r3 => parseObjItems fuel ((listToStr key, v) :: acc) r3
            | '}' :: r3 => some (.jobj ((listToStr key, v) :: acc).reverse, r3)
            | _ => none
        | _ => none
    | _ => none

end

/-- `JSON.parse`: parse one JSON value and require only trailing
whitespace after it; `none` models a thrown `SyntaxError`. -/
def jsonParse (s : String) : Option JVal :=
  match parseJ (2 * s.toList.length + 4) s.toList with
  | some (v, rest) => if rest.dropWhile jsonWs = [] then some v else none
  | none => none

/- ──────────────────── data model (src/core/types.ts) ─────────────────── -/

/-- Chat message roles. -/
inductive Role where
  | system
  | user
  | assistant
deriving DecidableEq

/-- A chat message: `{ role, content }`. -/
structure Message where
  role : Role
  content : String
deriving DecidableEq

/-- `REPLResult` of `src/core/types.ts`.  `executionTime` (a wall-clock
reading) is not modelled; no verified claim mentions durations.
`rlmCalls` keeps the parsed sub-call records as raw JSON values: the
TypeScript code reshapes them field-by-field into `RLMChatCompletion`
(a bijective renaming) and no claim inspects their contents. -/
structure REPLResult where
  stdout : String
  stderr : String
  locals : List (String × JVal)
  rlmCalls : List JVal

/-- `CodeBlock`: a code string paired with its execution result. -/
structure CodeBlock where
  code : String
  result : REPLResult

/-- `RLMIteration` (sans the unmodelled `iterationTime`). -/
structure RLMIteration where
  prompt : List Message
  response : String
  codeBlocks : List CodeBlock
  finalAnswer : Option String

/- ─────────── code-block extraction (src/utils/parsing.ts) ─────────────── -/

/-- The literal `"```repl"` that opens a fenced block. -/
def OPENPAT : List Char := "```repl".toList

/-- The literal `"\n```"` that the lazy content group must reach. -/
def CLOSEPAT : List Char := "\n```".toList

/-- Three backticks. -/
def TRIPLEPAT : List Char := "```".toList

/-- Backtracking choice of the `\s*\n` part of
`/```repl\s*\n([\s\S]*?)\n```/g` at a candidate match position: `rest` is
the input just after `” ```repl ”`.  A greedy `\s*` of length `j` requires
the literal `\n` at index `j` and the lazy content group then needs a
later `"\n```"`; the engine tries the largest such `j` first.  Called with
the length of the maximal whitespace run, counting down. -/
def pickNl (rest : List Char) : Nat → Option Nat
  | 0 => none
  | j + 1 =>
    if (rest[j]? == some '\n') && (findSub CLOSEPAT (rest.drop (j + 1))).isSome
    then some j
    else pickNl rest j

/-- Match the tail of a fenced block at a position where `” ```repl ”` has
just been consumed: returns the captured (lazy, un-trimmed) content group
and the remaining input after the closing fence. -/
def matchAt (rest : List Char) : Option (List Char × List Char) :=
  match pickNl rest (rest.takeWhile isWsChar).length with
  | none => none
  | some j =>
    let after := rest.drop (j + 1)
    match findSub CLOSEPAT after with
    | some idx => some (after.take idx, after.drop (idx + 4))
    | none => none

/-- The repeated `exec` loop of `findCodeBlocks`: scan left to right; at
each position where the literal `” ```repl ”` matches, try to complete the
block, emit the trimmed content and resume after the closing fence;
otherwise advance one character.  `fuel` is an upper bound on the number
of scanning steps (the input length suffices). -/
def scanBlocks : Nat → List Char → List (List Char)
  | 0, _ => []
  | _ + 1, [] => []
  | fuel + 1, c :: cs =>
    if startsWithL OPENPAT (c :: cs) then
      match matchAt ((c :: cs).drop 7) with
      | some (content, rem) => trimL content :: scanBlocks fuel rem
      | none => scanBlocks fuel cs
    else scanBlocks fuel cs

/-- `findCodeBlocks` of `src/utils/parsing.ts`: all matches of
`/```repl\s*\n([\s\S]*?)\n```/g`, each capture trimmed. -/
def findCodeBlocks (text : String) : List String :=
  (scanBlocks text.toList.length text.toList).map listToStr

/- ─────────── terminating markers (src/utils/parsing.ts) ───────────────── -/

/-- The literal `"FINAL_VAR("`. -/
def FINALVARPAT : List Char := "FINAL_VAR(".toList

/-- The literal `"FINAL("`. -/
def FINALPAT : List Char := "FINAL(".toList

/-- The lazy group `(.*?)` followed by `)` of the FINAL_VAR pattern:
shortest run of non-newline characters up to a closing parenthesis. -/
def argScanVar : List Char → Option (List Char)
  | [] => none
  | c :: cs =>
    if c = ')' then some []
    else if c = '\n' then none
    else (argScanVar cs).map (c :: ·)

/-- Attempt `FINAL_VAR\((.*?)\)` at an exact position. -/
def tryVarMarker (u : List Char) : Option (List Char) :=
  if startsWithL FINALVARPAT u then argScanVar (u.drop 10) else none

/-- Greedy `\s*` before the FINAL_VAR literal: try the longest whitespace
run first, backing off one character at a time.  Called with
(length of whitespace run) + 1. -/
def tryVarLs (t : List Char) : Nat → Option (List Char)
  | 0 => none
  | k + 1 =>
    match tryVarMarker (t.drop k) with
    | some v => some v
    | none => tryVarLs t k

/-- Attempt `^\s*FINAL_VAR\((.*?)\)` at a line-start position. -/
def tryVarAt (t : List Char) : Option (List Char) :=
  tryVarLs t ((t.takeWhile isWsChar).length + 1)

/-- Scan for the leftmost match of `/^\s*FINAL_VAR\((.*?)\)/m`: positions
are tried left to right, the `^` anchor holding at offset 0 and after
every newline. -/
def findVarAux : Nat → List Char → Bool → Option (List Char)
  | 0, _, _ => none
  | _ + 1, [], _ => none
  | fuel + 1, c :: cs, atLineStart =>
    match (if atLineStart then tryVarAt (c :: cs) else none) with
    | some v => some v
    | none => findVarAux fuel cs (c = '\n')

/-- First capture of `/^\s*FINAL_VAR\((.*?)\)/m`, if any. -/
def finalVarMatch (s : String) : Option String :=
  (findVarAux (s.toList.length + 1) s.toList true).map listToStr

/-- After the closing parenthesis, `\s*$` (multiline, dot-all): some
prefix of the whitespace run must end at a line end — i.e. the run either
exhausts the input or contains a newline. -/
def finalEndOk (r : List Char) : Bool :=
  let w := r.takeWhile isWsChar
  (w.length == r.length) || w.contains '\n'

/-- The greedy group `(.*)` (dot-all) followed by `)\s*$`: try the
rightmost closing parenthesis first.  Called with the remaining length. -/
def finalContentScan (u : List Char) : Nat → Option (List Char)
  | 0 => none
  | k + 1 =>
    if (u[k]? == some ')') && finalEndOk (u.drop (k + 1)) then some (u.take k)
    else finalContentScan u k

/-- Attempt `FINAL\((.*)\)\s*$` at an exact position. -/
def tryFinalMarker (u : List Char) : Option (List Char) :=
  if startsWithL FINALPAT u then
    finalContentScan (u.drop 6) (u.drop 6).length
  else none

/-- Greedy `\s*` before the FINAL literal (longest run first). -/
def tryFinalLs (t : List Char) : Nat → Option (List Char)
  | 0 => none
  | k + 1 =>
    match tryFinalMarker (t.drop k) with
    | some v => some v
    | none => tryFinalLs t k

/-- Attempt `^\s*FINAL\((.*)\)\s*$` at a line-start position. -/
def tryFinalAt (t : List Char) : Option (List Char) :=
  tryFinalLs t ((t.takeWhile isWsChar).length + 1)

/-- Scan for the leftmost match of `/^\s*FINAL\((.*)\)\s*$/ms`. -/
def findFinalAux : Nat → List Char → Bool → Option (List Char)
  | 0, _, _ => none
  | _ + 1, [], _ => none
  | fuel + 1, c :: cs, atLineStart =>
    match (if atLineStart then tryFinalAt (c :: cs) else none) with
    | some v => some v
    | none => findFinalAux fuel cs (c = '\n')

/-- First capture of `/^\s*FINAL\((.*)\)\s*$/ms`, if any. -/
def finalMatchPat (s : String) : Option String :=
  (findFinalAux (s.toList.length + 1) s.toList true).map listToStr

/-- Is the character a double or single quote? -/
def isQuoteCh (c : Char) : Bool := c = '"' || c.toNat = 39

/-- `variableName.replace(/^["']|["']$/g, "")`: strip one leading and one
trailing quote character, independently. -/
def stripOuterQuotes (s : String) : String :=
  let l1 :=
    match s.toList with
    | c :: rest => if isQuoteCh c then rest else s.toList
    | [] => []
  let l2 :=
    match l1.getLast? with
    | some c => if isQuoteCh c then l1.dropLast else l1
    | none => l1
  listToStr l2

def hexDigitCh (n : Nat) : Char :=
  if n < 10 then Char.ofNat (48 + n) else Char.ofNat (87 + n)

/-- `JSON.stringify` applied to one string value. -/
def jsStringifyStr (s : String) : String :=
  listToStr ('"' :: (s.toList.map escapeJsonChar).flatten ++ ['"'])
where
  escapeJsonChar (c : Char) : List Char :=
    if c = '"' then ['\\', '"']
    else if c = '\\' then ['\\', '\\']
    else if c = '\x08' then ['\\', 'b']
    else if c = '\x0c' then ['\\', 'f']
    else if c = '\n' then ['\\', 'n']
    else if c = '\r' then ['\\', 'r']
    else if c = '\t' then ['\\', 't']
    else if c.toNat < 0x20 then
      ['\\', 'u', '0', '0', hexDigitCh (c.toNat / 16), hexDigitCh (c.toNat % 16)]
    else [c]

/-- The FINAL_VAR branch of `findFinalAnswer`: with a sandbox, execute
`print(FINAL_VAR(<stringified name>))` and take the trimmed stdout, or
the trimmed stderr when stdout trims to empty; without a sandbox the
marker is detected but no answer is produced (`null`). -/
def finalVarBranch (rawArg : String)
    (sandbox : Option (String → REPLResult)) : Option String :=
  let variableName := stripOuterQuotes (jsTrim rawArg)
  match sandbox with
  | some exec =>
    let result := exec ("print(FINAL_VAR(" ++ jsStringifyStr variableName ++ "))")
    let finalAnswer := jsTrim result.stdout
    if finalAnswer = "" then some (jsTrim result.stderr)
    else some finalAnswer
  | none => none

/-- `findFinalAnswer` of `src/utils/parsing.ts`: the FINAL_VAR pattern is
tried first; only when it produces no match is the FINAL pattern
consulted.  The sandbox argument is the (synchronous) local sandbox
`executeCode`, modelled as a pure oracle. -/
def findFinalAnswer (text : String)
    (sandbox : Option (String → REPLResult)) : Option String :=
  match finalVarMatch text with
  | some rawArg => finalVarBranch rawArg sandbox
  | none =>
    match finalMatchPat text with
    | some inner => some (jsTrim inner)
    | none => none

/- ─────────── result formatting (src/utils/parsing.ts) ─────────────────── -/

/-- Join with a separator (`Array.prototype.join`). -/
def joinSep (sep : String) : List String → String
  | [] => ""
  | [x] => x
  | x :: xs => x ++ sep ++ joinSep sep xs

/-- The `typeof`-based filter of `formatExecutionResult`: strings, numbers,
booleans, arrays and non-null objects are listed; `null` is excluded.
(`undefined`, functions and symbols cannot occur in locals parsed from the
sandbox's JSON output.) -/
def jvalListed : JVal → Bool
  | .jnull => false
  | _ => true

/-- `formatExecutionResult` of `src/utils/parsing.ts`. -/
def formatExecutionResult (r : REPLResult) : String :=
  let parts0 : List String :=
    if r.stdout ≠ "" then ["\n" ++ r.stdout] else []
  let parts1 : List String :=
    parts0 ++ (if r.stderr ≠ "" then ["\n" ++ r.stderr] else [])
  let importantVars : List String :=
    (r.locals.filter (fun kv =>
      !(startsWithL ['_'] kv.1.toList) &&
      !(kv.1 = "__builtins__" || kv.1 = "__name__" || kv.1 = "__doc__") &&
      jvalListed kv.2)).map (fun kv => kv.1)
  let parts2 : List String :=
    parts1 ++
      (if importantVars.length > 0 then
        ["REPL variables: [" ++
          joinSep ", " (importantVars.map (fun v => "'" ++ v ++ "'")) ++
          "]\n"]
      else [])
  if parts2.length > 0 then joinSep "\n\n" parts2 else "No output"

/-- `result.slice(0, n)`. -/
def strTake (s : String) (n : Nat) : String := listToStr (s.toList.take n)

/-- `formatIteration` of `src/utils/parsing.ts`: one assistant message with
the verbatim response, then one user message per executed code block,
with the rendered result clamped at `maxCharacterLength` characters plus
a suffix reporting the elided count.  (The TypeScript default for
`maxCharacterLength` is 20000; callers here always pass it explicitly.) -/
def formatIteration (it : RLMIteration) (maxCharacterLength : Nat) :
    List Message :=
  ⟨.assistant, it.response⟩ ::
  it.codeBlocks.map (fun cb =>
    let result := formatExecutionResult cb.result
    let result' :=
      if maxCharacterLength < result.length then
        strTake result maxCharacterLength ++ "... + [" ++
          toString (result.length - maxCharacterLength) ++ " chars...]"
      else result
    ⟨.user, "Code executed:\n```python\n" ++ cb.code ++
      "\n```\n\nREPL output:\n" ++ result'⟩)

/- ───────── `LocalSandbox.executeCode` result parsing (part_000) ────────── -/

/-- JavaScript `String.prototype.split("\n")` on a character list. -/
def splitNl : List Char → List (List Char)
  | [] => [[]]
  | c :: cs =>
    match splitNl cs with
    | [] => [[c]]
    | h :: t => if c = '\n' then [] :: h :: t else (c :: h) :: t

/-- `stdout.trimEnd().split("\n")` and `lines[lines.length - 1] ?? ""`. -/
def lastLineOf (stdout : String) : String :=
  listToStr ((splitNl (trimEndL stdout.toList)).getLastD [])

/-- JavaScript property read on a parsed JSON value: `undefined` (`none`)
unless the value is an object with the key; later duplicate keys shadow
earlier ones. -/
def getField (v : JVal) (k : String) : Option JVal :=
  match v with
  | .jobj fs => List.lookup k fs.reverse
  | _ => none

/-- Is a JSON number lexeme zero-valued (sign and exponent ignored, all
mantissa digits `0`)? -/
def numLexZero (lex : String) : Bool :=
  let l :=
    match lex.toList with
    | '-' :: r => r
    | l => l
  (l.takeWhile (fun c => !(c = 'e' || c = 'E'))).all (fun c => c = '0' || c = '.')

/-- JavaScript truthiness of a parsed JSON value. -/
def jsTruthy : JVal → Bool
  | .jnull => false
  | .jbool b => b
  | .jstr s => s ≠ ""
  | .jnum lex => !(numLexZero lex)
  | .jarr _ => true
  | .jobj _ => true

mutual

/-- JavaScript `String(v)` coercion of a parsed JSON value (numbers are
approximated by their lexeme — no verified claim depends on number
re-formatting). -/
def jsDisplay : JVal → String
  | .jnull => "null"
  | .jbool true => "true"
  | .jbool false => "false"
  | .jnum lex => lex
  | .jstr s => s
  | .jarr xs => joinSep "," (jsDisplayList xs)
  | .jobj _ => "[object Object]"

def jsDisplayList : List JVal → List String
  | [] => []
  | x :: xs => jsDisplay x :: jsDisplayList xs

end

/-- `data.<k> ?? ""` followed by use as a string (`null`/absent give `""`;
non-string JSON junk is carried through by the TypeScript cast and
coerces at the use sites, modelled by `jsDisplay`). -/
def strFieldD (data : JVal) (k : String) : String :=
  match getField data k with
  | none => ""
  | some .jnull => ""
  | some (.jstr s) => s
  | some v => jsDisplay v

/-- `data.locals ?? {}`, used as an entries source: only an object
contributes entries. -/
def localsField (data : JVal) : List (String × JVal) :=
  match getField data "locals" with
  | some (.jobj fs) => fs
  | _ => []

def notNullJ : JVal → Bool
  | .jnull => false
  | _ => true

/-- Does mapping the conversion callback over one `rlm_calls` element
complete without throwing?  Property reads on `null` throw; reads on other
primitives yield `undefined`; the optional chain
`call.usage_summary?.model_usage_summaries ?? {}` shields everything
except a `null` usage-entry value (on which `usage.total_calls` throws). -/
def callElemOk : JVal → Bool
  | .jnull => false
  | .jobj fs =>
    let mus : Option JVal :=
      match List.lookup "usage_summary" fs.reverse with
      | some u => getField u "model_usage_summaries"
      | none => none
    let entries : List (String × JVal) :=
      match mus with
      | some (.jobj es) => es
      | _ => []
    entries.all (fun kv => notNullJ kv.2)
  | _ => true

/-- The `try` body of the result-parsing step of
`LocalSandbox.executeCode`: `JSON.parse` the last stdout line, read the
optional `rlm_calls` array (a truthy non-array or a throwing element
aborts to the `catch`), and assemble the `REPLResult` of the success
branch, whose stderr is the parsed record's stderr concatenated with the
process-level stderr.  `none` models a thrown exception. -/
def tryParseRecord (lastLine : String) (procStderr : String) :
    Option REPLResult :=
  match jsonParse lastLine with
  | none => none
  | some data =>
    match data with
    | .jnull => none
    | _ =>
      let callsOpt : Option (List JVal) :=
        match getField data "rlm_calls" with
        | none => some []
        | some v =>
          if jsTruthy v then
            match v with
            | .jarr xs => if xs.all callElemOk then some xs else none
            | _ => none
          else some []
      match callsOpt with
      | none => none
      | some calls =>
        some { stdout := strFieldD data "stdout"
               stderr := strFieldD data "stderr" ++ procStderr
               locals := localsField data
               rlmCalls := calls }

/-- The result-assembly step of `LocalSandbox.executeCode`
(`src/unnamed/part_000`, lines 154–217): the child interpreter run is an
oracle supplying its raw stdout and stderr; the last trimmed stdout line
is parsed as the structured record, and on any parse failure the raw
stdout becomes the result's stdout while the stderr is the process stderr
when nonempty, else the literal `"Parse error"` (`stderr || "Parse
error"`). -/
def executeCodeParse (childStdout childStderr : String) : REPLResult :=
  match tryParseRecord (lastLineOf childStdout) childStderr with
  | some r => r
  | none =>
    { stdout := childStdout
      stderr := if childStderr = "" then "Parse error" else childStderr
      locals := []
      rlmCalls := [] }

/- ──────────────── prompt construction (src/unnamed/part_003) ──────────── -/

def USER_PROMPT : String :=
  "Think step-by-step on what to do using the REPL environment (which contains the context) to answer the prompt.\n\nContinue using the REPL environment, which has the `context` variable, and querying sub-LLMs by writing to ```repl``` tags, and determine your answer. Your next action:"

def USER_PROMPT_WITH_ROOT : String :=
  "Think step-by-step on what to do using the REPL environment (which contains the context) to answer the original prompt: \"{rootPrompt}\".\n\nContinue using the REPL environment, which has the `context` variable, and querying sub-LLMs by writing to ```repl``` tags, and determine your answer. Your next action:"

/-- JavaScript `String.prototype.replace` with a string pattern: replace
the first occurrence only. -/
def replaceFirst (s pat rep : String) : String :=
  match findSub pat.toList s.toList with
  | some i =>
    listToStr (s.toList.take i ++ rep.toList ++ s.toList.drop (i + pat.toList.length))
  | none => s

/-- `buildUserPrompt` of `src/unnamed/part_003`.  `rootPrompt ? … : …` is
JavaScript truthiness, so an empty root prompt selects the plain
template. -/
def buildUserPrompt (rootPrompt : Option String) (iteration : Nat)
    (contextCount historyCount : Nat) : Message :=
  let base : String :=
    match rootPrompt with
    | some rp =>
      if rp = "" then USER_PROMPT
      else replaceFirst USER_PROMPT_WITH_ROOT "{rootPrompt}" rp
    | none => USER_PROMPT
  let prompt :=
    if iteration = 0 then
      "You have not interacted with the REPL environment or seen your prompt / context yet. Your next action should be to look through and figure out how to answer the prompt, so don't just provide a final answer yet.\n\n" ++ base
    else
      "The history before is your previous interactions with the REPL environment. " ++ base
  let prompt :=
    if contextCount > 1 then
      prompt ++ "\n\nNote: You have " ++ toString contextCount ++
        " contexts available (context_0 through context_" ++
        toString (contextCount - 1) ++ ")."
    else prompt
  let prompt :=
    if historyCount > 0 then
      if historyCount = 1 then
        prompt ++ "\n\nNote: You have 1 prior conversation history available in the `history` variable."
      else
        prompt ++ "\n\nNote: You have " ++ toString historyCount ++
          " prior conversation histories available (history_0 through history_" ++
          toString (historyCount - 1) ++ ")."
    else prompt
  ⟨.user, prompt⟩

/- ───────────── query metadata (src/core/types.ts) ─────────────────────── -/

/-- The context payload accepted by `completion`: plain text, an ordered
sequence, or a keyed collection (arbitrary JSON-shaped values). -/
inductive Payload where
  | pstr (s : String)
  | plist (items : List JVal)
  | pdict (fields : List (String × JVal))

structure QueryMetadata where
  contextLengths : List Nat
  contextTotalLength : Nat
  contextType : String

mutual

/-- `JSON.stringify` of a JSON-shaped value (objects/arrays without
spacing, strings escaped).  JSON values never make `JSON.stringify`
throw, so the surrounding `try`/`catch` of the source is invisible. -/
def jsonStringify : JVal → String
  | .jnull => "null"
  | .jbool true => "true"
  | .jbool false => "false"
  | .jnum lex => lex
  | .jstr s => jsStringifyStr s
  | .jarr xs => "[" ++ joinSep "," (jsonStringifyList xs) ++ "]"
  | .jobj fs => "\x7b" ++ joinSep "," (jsonStringifyFields fs) ++ "\x7d"

def jsonStringifyList : List JVal → List String
  | [] => []
  | x :: xs => jsonStringify x :: jsonStringifyList xs

def jsonStringifyFields : List (String × JVal) → List String
  | [] => []
  | kv :: rest =>
    (jsStringifyStr kv.1 ++ ":" ++ jsonStringify kv.2) :: jsonStringifyFields rest

end

/-- `typeof first === "object" && first !== null && "content" in first`. -/
def hasContentKey : JVal → Bool
  | .jobj fs => fs.any (fun kv => kv.1 = "content")
  | _ => false

/-- `buildQueryMetadata` of `src/core/types.ts`. -/
def buildQueryMetadata : Payload → QueryMetadata
  | .pstr s => ⟨[s.length], s.length, "string"⟩
  | .plist items =>
    match items with
    | [] => ⟨[0], 0, "list"⟩
    | first :: _ =>
      if hasContentKey first then
        let lengths := items.map (fun item =>
          (match getField item "content" with
           | some .jnull => ""
           | some v => jsDisplay v
           | none => "").length)
        ⟨lengths, lengths.sum, "list"⟩
      else
        let lengths := items.map (fun item =>
          match item with
          | .jstr s => s.length
          | _ => (jsonStringify item).length)
        ⟨lengths, lengths.sum, "list"⟩
  | .pdict fields =>
    let lengths := fields.map (fun kv =>
      match kv.2 with
      | .jstr s => s.length
      | v => (jsonStringify v).length)
    ⟨lengths, lengths.sum, "dict"⟩

/-- `JSON.stringify` of a number array (used for the chunk-length list). -/
def natListStringify (l : List Nat) : String :=
  "[" ++ joinSep "," (l.map toString) ++ "]"

/-- `buildRlmSystemPrompt` of `src/unnamed/part_003`: the system-prompt
message followed by an assistant-role context-metadata message; chunk
lists longer than 100 entries are truncated with an explicit suffix. -/
def buildRlmSystemPrompt (systemPrompt : String) (qm : QueryMetadata) :
    List Message :=
  let contextLengthsStr :=
    if qm.contextLengths.length > 100 then
      natListStringify (qm.contextLengths.take 100) ++ "... [" ++
        toString (qm.contextLengths.length - 100) ++ " others]"
    else natListStringify qm.contextLengths
  let metadataPrompt :=
    "Your context is a " ++ qm.contextType ++ " with " ++
    toString qm.contextTotalLength ++
    " total characters, and is broken up into chunks of char lengths: " ++
    contextLengthsStr ++ "."
  [⟨.system, systemPrompt⟩, ⟨.assistant, metadataPrompt⟩]

/- ───────────────── the iteration driver (src/core/rlm.ts) ─────────────── -/

/-- Records dispatched to the `RLMLogger` (one JSON line each): a
`metadata`-typed record or an `iteration`-typed record. -/
inductive LogEvent where
  | metadataRec
  | iterationRec
deriving DecidableEq

/-- The epilogue request appended by `RLM.defaultAnswer`. -/
def FINAL_REQUEST_TEXT : String :=
  "Please provide a final answer to the user's question based on the information provided."

structure LoopOut where
  response : String
  events : List LogEvent
  lmCalls : Nat

/-- The iteration loop of `RLM.completion` (steps 5–6 of the completion
algorithm) over a pure LM oracle `lm` (message history to response text)
and a pure sandbox oracle `sb` (code to result).  The remaining-iteration
counter is the third explicit argument; on exhaustion `RLM.defaultAnswer`
appends one assistant-role request, makes one more LM call, logs one more
record through `RLMLogger.log`, and returns that call's text.  A fresh
local sandbox reports `getContextCount() = 1` and `getHistoryCount() = 0`,
passed here as `contextCount`/`historyCount`. -/
def runLoop (lm : List Message → String) (sb : String → REPLResult)
    (rootPrompt : Option String) (hasLogger : Bool)
    (contextCount historyCount : Nat) :
    List Message → Nat → Nat → LoopOut
  | history, _, 0 =>
    let currentPrompt := history ++ [⟨.assistant, FINAL_REQUEST_TEXT⟩]
    let response := lm currentPrompt
    { response := response
      events := if hasLogger then [.iterationRec] else []
      lmCalls := 1 }
  | history, i, rem + 1 =>
    let currentPrompt :=
      history ++ [buildUserPrompt rootPrompt i contextCount historyCount]
    let response := lm currentPrompt
    let codeBlocks :=
      (findCodeBlocks response).map (fun c => CodeBlock.mk c (sb c))
    let iteration : RLMIteration := ⟨currentPrompt, response, codeBlocks, none⟩
    let finalAnswer := findFinalAnswer response (some sb)
    let ev : List LogEvent := if hasLogger then [.iterationRec] else []
    match finalAnswer with
    | some a => { response := a, events := ev, lmCalls := 1 }
    | none =>
      let newHistory := history ++ formatIteration iteration 20000
      let rest := runLoop lm sb rootPrompt hasLogger contextCount historyCount
        newHistory (i + 1) rem
      { response := rest.response
        events := ev ++ rest.events
        lmCalls := 1 + rest.lmCalls }

/-- The fallback single user message of `RLM.fallbackAnswer`
(string payloads pass through, others are `JSON.stringify`-ed). -/
def payloadUserMessage : Payload → Message
  | .pstr s => ⟨.user, s⟩
  | .plist items => ⟨.user, jsonStringify (.jarr items)⟩
  | .pdict fields => ⟨.user, jsonStringify (.jobj fields)⟩

/-- `RLM.completion` over the pure oracles: at or above max depth, one
direct LM call with no iteration records (`fallbackAnswer`); below max
depth, the initial history is the system prompt plus the context-metadata
message and the loop runs for at most `maxIterations` turns. -/
def completionModel (lm : List Message → String) (sb : String → REPLResult)
    (systemPrompt : String) (rootPrompt : Option String) (hasLogger : Bool)
    (depth maxDepth maxIterations : Nat) (prompt : Payload) : LoopOut :=
  if maxDepth ≤ depth then
    { response := lm [payloadUserMessage prompt], events := [], lmCalls := 1 }
  else
    let queryMetadata := buildQueryMetadata prompt
    let messageHistory := buildRlmSystemPrompt systemPrompt queryMetadata
    runLoop lm sb rootPrompt hasLogger 1 0 messageHistory 0 maxIterations

/-- The `RLM` constructor's logging: when a logger is configured the
metadata record is built and handed to `RLMLogger.logMetadata`, which
writes it (the logger is fresh, so its `metadataLogged` guard is down).
No other code path writes a metadata record. -/
def constructEvents (hasLogger : Bool) : List LogEvent :=
  if hasLogger then [.metadataRec] else []

/-- A whole driver run: one construction followed by `numCompletions`
successive `completion` calls (depth 0, max depth 1 — the source
defaults), giving the per-phase lists of logged records. -/
def driverRun (hasLogger : Bool) (lm : List Message → String)
    (sb : String → REPLResult) (systemPrompt : String)
    (rootPrompt : Option String) (maxIterations : Nat) (prompt : Payload)
    (numCompletions : Nat) : List (List LogEvent) :=
  constructEvents hasLogger ::
  List.replicate numCompletions
    (completionModel lm sb systemPrompt rootPrompt hasLogger 0 1 maxIterations
      prompt).events

/- ───────────────────────── string-length lemmas ───────────────────────── -/

theorem length_listToStr (l : List Char) : (listToStr l).length = l.length := rfl

theorem toList_listToStr (l : List Char) : (listToStr l).toList = l := rfl

theorem toList_append (s t : String) : (s ++ t).toList = s.toList ++ t.toList := by
  cases s
  cases t
  rfl

theorem strLength_append (s t : String) : (s ++ t).length = s.length + t.length := by
  cases s
  cases t
  simp [String.length, String.append]

theorem toList_length (s : String) : s.toList.length = s.length := rfl

/- ─────────────────────────── theorems: C2 ─────────────────────────────── -/

/-- **C2** (corrected).  For a code block whose rendered execution result
exceeds 20 000 characters, the emitted user-role message consists of the
fixed wrapper (44 characters), the executed code, the first 20 000
characters of the rendering, and a suffix literally reporting the elided
count — so its total length is `44 + |code| + 20000 + |suffix|`, which
additionally includes the code and is *not* bounded by 20 000 plus the
suffix alone. -/
theorem claim_C2 (it : RLMIteration) (cb : CodeBlock)
    (hmem : cb ∈ it.codeBlocks)
    (hlen : 20000 < (formatExecutionResult cb.result).length) :
    (⟨.user,
        "Code executed:\n```python\n" ++ cb.code ++ "\n```\n\nREPL output:\n" ++
          (strTake (formatExecutionResult cb.result) 20000 ++
            ("... + [" ++
              toString ((formatExecutionResult cb.result).length - 20000) ++
              " chars...]"))⟩ : Message) ∈ formatIteration it 20000 ∧
    ("Code executed:\n```python\n" ++ cb.code ++ "\n```\n\nREPL output:\n" ++
        (strTake (formatExecutionResult cb.result) 20000 ++
          ("... + [" ++
            toString ((formatExecutionResult cb.result).length - 20000) ++
            " chars...]"))).length =
      44 + cb.code.length + 20000 +
        ("... + [" ++
          toString ((formatExecutionResult cb.result).length - 20000) ++
          " chars...]").length := by
  constructor
  · unfold formatIteration
    refine List.mem_cons_of_mem _ ?_
    refine List.mem_map.mpr ⟨cb, hmem, ?_⟩
    simp only [if_pos hlen, String.append_assoc]
  · have htake : (strTake (formatExecutionResult cb.result) 20000).length = 20000 := by
      unfold strTake
      rw [length_listToStr, List.length_take, toList_length]
      omega
    have h1 : ("Code executed:\n```python\n" : String).length = 25 := rfl
    have h2 : ("\n```\n\nREPL output:\n" : String).length = 19 := rfl
    simp only [strLength_append]
    rw [htake, h1, h2]
    omega

/-- Concrete artifacts for the C2 theorems: a 100-character code string
and an execution result whose rendering has 20 002 characters. -/
def c2Code : String := listToStr (List.replicate 100 'a')

def c2BigStdout : String := listToStr (List.replicate 20001 'x')

def c2Result : REPLResult := ⟨c2BigStdout, "", [], []⟩

def c2Block : CodeBlock := ⟨c2Code, c2Result⟩

def c2Iter : RLMIteration := ⟨[], "resp", [c2Block], none⟩

theorem c2Res_eq : formatExecutionResult c2Result = "\n" ++ c2BigStdout := rfl

theorem c2Big_len : c2BigStdout.length = 20001 := by
  rw [show c2BigStdout = listToStr (List.replicate 20001 'x') from rfl,
    length_listToStr, List.length_replicate]

theorem c2Res_len : (formatExecutionResult c2Result).length = 20002 := by
  rw [c2Res_eq, strLength_append, c2Big_len]
  decide

/-- **C2 witness**: the theorem applied to the concrete 100-character code
block with a 20 002-character rendering. -/
theorem claim_C2_witness :
    c2Block ∈ c2Iter.codeBlocks ∧
    20000 < (formatExecutionResult c2Block.result).length ∧
    (("Code executed:\n```python\n" ++ c2Block.code ++ "\n```\n\nREPL output:\n" ++
        (strTake (formatExecutionResult c2Block.result) 20000 ++
          ("... + [" ++
            toString ((formatExecutionResult c2Block.result).length - 20000) ++
            " chars...]"))).length =
      44 + c2Block.code.length + 20000 +
        ("... + [" ++
          toString ((formatExecutionResult c2Block.result).length - 20000) ++
          " chars...]").length) := by
  have hmem : c2Block ∈ c2Iter.codeBlocks := List.mem_singleton.mpr rfl
  have hlen : 20000 < (formatExecutionResult c2Block.result).length := by
    rw [show c2Block.result = c2Result from rfl, c2Res_len]
    omega
  exact ⟨hmem, hlen, (claim_C2 c2Iter c2Block hmem hlen).2⟩

/-- The user-role message emitted for the concrete C2 block. -/
def c2Msg : String :=
  "Code executed:\n```python\n" ++ c2Code ++ "\n```\n\nREPL output:\n" ++
    (strTake ("\n" ++ c2BigStdout) 20000 ++ "... + [2 chars...]")

theorem c2Take_len : (strTake ("\n" ++ c2BigStdout) 20000).length = 20000 := by
  unfold strTake
  rw [length_listToStr, List.length_take, toList_length, strLength_append, c2Big_len]
  decide

theorem c2Msg_len : c2Msg.length = 20162 := by
  have h0 : c2Code.length = 100 := by
    rw [show c2Code = listToStr (List.replicate 100 'a') from rfl,
      length_listToStr, List.length_replicate]
  have h1 : ("Code executed:\n```python\n" : String).length = 25 := rfl
  have h2 : ("\n```\n\nREPL output:\n" : String).length = 19 := rfl
  have h3 : ("... + [2 chars...]" : String).length = 18 := rfl
  unfold c2Msg
  simp only [strLength_append]
  rw [c2Take_len, h0, h1, h2, h3]

/-- **C2 counterexample.**  The claim bounds the emitted user-role message
length by 20 000 plus the (constant) suffix.  For a 100-character code
block with a 20 002-character rendering, the emitted message has length
20 162, exceeding 20 000 + 18 (18 being the length of the emitted suffix
`"... + [2 chars...]"`, which correctly reports the 2 elided characters):
the message additionally carries the code and the fixed wrapper. -/
theorem claim_C2_cex :
    formatIteration c2Iter 20000 = [⟨.assistant, "resp"⟩, ⟨.user, c2Msg⟩] ∧
    c2Msg.length = 20162 ∧
    20000 + ("... + [2 chars...]" : String).length < c2Msg.length := by
  refine ⟨?_, c2Msg_len, ?_⟩
  · have hc : 20000 < (formatExecutionResult c2Block.result).length := by
      have h : (formatExecutionResult c2Block.result).length = 20002 := c2Res_len
      omega
    have key :
        (if 20000 < (formatExecutionResult c2Block.result).length then
          strTake (formatExecutionResult c2Block.result) 20000 ++ "... + [" ++
            toString ((formatExecutionResult c2Block.result).length - 20000) ++
            " chars...]"
        else formatExecutionResult c2Block.result) =
          strTake ("\n" ++ c2BigStdout) 20000 ++ "... + [2 chars...]" := by
      rw [if_pos hc]
      have hres : formatExecutionResult c2Block.result = "\n" ++ c2BigStdout :=
        c2Res_eq
      have hlen : (formatExecutionResult c2Block.result).length = 20002 :=
        c2Res_len
      have ht : toString (20002 - 20000) = "2" := rfl
      rw [hlen, hres, ht, String.append_assoc, String.append_assoc]
      exact congrArg (fun x => strTake ("\n" ++ c2BigStdout) 20000 ++ x) (by decide)
    have hcb : c2Iter.codeBlocks = [c2Block] := rfl
    unfold formatIteration
    rw [hcb]
    simp only [List.map_cons, List.map_nil]
    rw [key]
    rfl
  · rw [c2Msg_len]
    decide

/- ─────────────────────────── theorems: C3 ─────────────────────────────── -/

/-- **C3** (corrected).  When the last line of the child's stdout is not
well-formed JSON, `executeCode` returns the whole raw stdout as the
result's stdout, and as stderr the child's raw stderr when nonempty, or
the literal `"Parse error"` only when the child produced no stderr: the
parse-error note *replaces* rather than joins a nonempty stderr. -/
theorem claim_C3 (childStdout childStderr : String)
    (h : jsonParse (lastLineOf childStdout) = none) :
    executeCodeParse childStdout childStderr =
      { stdout := childStdout
        stderr := if childStderr = "" then "Parse error" else childStderr
        locals := []
        rlmCalls := [] } := by
  unfold executeCodeParse tryParseRecord
  rw [h]

/-- **C3 witness**: a child emitting `"Hello\nworld"` (last line `"world"`,
not JSON) with stderr `"boom"`. -/
theorem claim_C3_witness :
    jsonParse (lastLineOf "Hello\nworld") = none ∧
    executeCodeParse "Hello\nworld" "boom" =
      { stdout := "Hello\nworld"
        stderr := if ("boom" : String) = "" then "Parse error" else "boom"
        locals := []
        rlmCalls := [] } :=
  ⟨rfl, claim_C3 "Hello\nworld" "boom" rfl⟩

/-- **C3 counterexample.**  The claim says stderr is "annotated with a
parse-error note (the note joining any stderr the child produced)".  With
child stderr `"boom"` and an unparseable last line, the result's stderr is
exactly `"boom"`: no parse-error note is joined. -/
theorem claim_C3_cex :
    executeCodeParse "Hello\nworld" "boom" =
      { stdout := "Hello\nworld", stderr := "boom", locals := [], rlmCalls := [] } ∧
    containsSub (executeCodeParse "Hello\nworld" "boom").stderr "Parse error" = false :=
  ⟨rfl, rfl⟩

/- ─────────────────────────── theorems: C4, C1 ─────────────────────────── -/

/-- The history accumulated by one loop turn: the turn's user prompt is
appended, the LM responds, code blocks execute, and `formatIteration`
renders the turn into history messages. -/
def stepHistory (lm : List Message → String) (sb : String → REPLResult)
    (root : Option String) (cc hc : Nat) (h : List Message) (i : Nat) :
    List Message :=
  let currentPrompt := h ++ [buildUserPrompt root i cc hc]
  let response := lm currentPrompt
  h ++ formatIteration
    ⟨currentPrompt, response,
      (findCodeBlocks response).map (fun c => CodeBlock.mk c (sb c)), none⟩ 20000

/-- The history after iterating `stepHistory` a given number of turns. -/
def histFrom (lm : List Message → String) (sb : String → REPLResult)
    (root : Option String) (cc hc : Nat) : List Message → Nat → Nat → List Message
  | h, _, 0 => h
  | h, i, r + 1 => histFrom lm sb root cc hc (stepHistory lm sb root cc hc h i) (i + 1) r

theorem runLoop_no_marker (lm : List Message → String) (sb : String → REPLResult)
    (root : Option String) (hl : Bool) (cc hc : Nat)
    (H : ∀ msgs, findFinalAnswer (lm msgs) (some sb) = none) :
    ∀ (rem : Nat) (h : List Message) (i : Nat),
      runLoop lm sb root hl cc hc h i rem =
        { response := lm (histFrom lm sb root cc hc h i rem ++
            [⟨.assistant, FINAL_REQUEST_TEXT⟩])
          events := if hl then List.replicate (rem + 1) .iterationRec else []
          lmCalls := rem + 1 } := by
  intro rem
  induction rem with
  | zero =>
    intro h i
    simp [runLoop, histFrom]
  | succ r ih =>
    intro h i
    simp only [runLoop]
    rw [H (h ++ [buildUserPrompt root i cc hc])]
    simp only [ih, histFrom, stepHistory]
    cases hl with
    | true => simp [List.replicate_succ]; omega
    | false => simp; omega

theorem runLoop_events_all_iter (lm : List Message → String)
    (sb : String → REPLResult) (root : Option String) (hl : Bool) (cc hc : Nat) :
    ∀ (rem : Nat) (h : List Message) (i : Nat),
      ∀ e ∈ (runLoop lm sb root hl cc hc h i rem).events, e = LogEvent.iterationRec := by
  intro rem
  induction rem with
  | zero =>
    intro h i e he
    simp only [runLoop] at he
    cases hl with
    | true => simpa using he
    | false => simp at he
  | succ r ih =>
    intro h i e he
    simp only [runLoop] at he
    split at he
    · cases hl with
      | true => simpa using he
      | false => simp at he
    · rw [List.mem_append] at he
      rcases he with he | he
      · cases hl with
        | true => simpa using he
        | false => simp at he
      · exact ih _ _ e he

/-- **C4** (corrected).  Exactly one metadata record is emitted per driver
*instance* — at construction, when a logger is configured — and none
during any completion call; every record a completion emits is an
iteration record, so the single metadata record precedes all iteration
records of every completion of that driver. -/
theorem claim_C4 (hasLogger : Bool) (lm : List Message → String)
    (sb : String → REPLResult) (systemPrompt : String)
    (rootPrompt : Option String) (maxIterations : Nat) (prompt : Payload)
    (n : Nat) :
    (driverRun hasLogger lm sb systemPrompt rootPrompt maxIterations prompt n).map
        (fun seg => seg.count LogEvent.metadataRec) =
      (if hasLogger then 1 else 0) :: List.replicate n 0 ∧
    ∀ e ∈ (completionModel lm sb systemPrompt rootPrompt hasLogger 0 1
        maxIterations prompt).events, e = LogEvent.iterationRec := by
  have hall : ∀ e ∈ (completionModel lm sb systemPrompt rootPrompt hasLogger 0 1
      maxIterations prompt).events, e = LogEvent.iterationRec := by
    intro e he
    have h01 : ¬ (1 ≤ 0) := by omega
    simp only [completionModel, if_neg h01] at he
    exact runLoop_events_all_iter lm sb rootPrompt hasLogger 1 0 maxIterations _ 0 e he
  refine ⟨?_, hall⟩
  unfold driverRun
  rw [List.map_cons, List.map_replicate]
  have hhead : (constructEvents hasLogger).count LogEvent.metadataRec =
      if hasLogger then 1 else 0 := by
    cases hasLogger with
    | false => simp [constructEvents]
    | true =>
      simp only [constructEvents, if_pos]
      decide
  have hzero : (completionModel lm sb systemPrompt rootPrompt hasLogger 0 1
      maxIterations prompt).events.count LogEvent.metadataRec = 0 := by
    rw [List.count_eq_zero]
    intro hmem
    have := hall _ hmem
    simp at this
  rw [hhead, hzero]

/-- The LM oracle that never emits a marker (always answers `"nothing"`),
and a sandbox oracle returning empty results. -/
def lmNothing : List Message → String := fun _ => "nothing"

def sbEmpty : String → REPLResult := fun _ => ⟨"", "", [], []⟩

/-- **C4 counterexample.**  One driver (with a logger) performing *two*
completion calls emits a single metadata record — at construction — and
none during either completion: the per-phase metadata counts are
`[1, 0, 0]`, refuting "exactly one metadata record is emitted for every
completion call". -/
theorem claim_C4_cex :
    (driverRun true lmNothing sbEmpty "SYS" none 1 (.pstr "ctx") 2).map
        (fun seg => seg.count LogEvent.metadataRec) = [1, 0, 0] ∧
    (driverRun true lmNothing sbEmpty "SYS" none 1 (.pstr "ctx") 2).length = 3 :=
  ⟨rfl, rfl⟩

/-- **C1** (corrected).  When the LM never emits a terminating marker, a
completion call started below max depth (with a logger) emits
`max_iterations + 1` iteration-typed records — one per loop turn plus one
more logged by `defaultAnswer` for the epilogue turn — makes
`max_iterations + 1` LM calls, and returns the text of the final LM call,
which is made on the accumulated history extended with one assistant-role
message asking for a final answer. -/
theorem claim_C1 (lm : List Message → String) (sb : String → REPLResult)
    (systemPrompt : String) (rootPrompt : Option String) (maxIterations : Nat)
    (prompt : Payload)
    (H : ∀ msgs, findFinalAnswer (lm msgs) (some sb) = none) :
    (completionModel lm sb systemPrompt rootPrompt true 0 1 maxIterations
        prompt).events.count LogEvent.iterationRec = maxIterations + 1 ∧
    (completionModel lm sb systemPrompt rootPrompt true 0 1 maxIterations
        prompt).lmCalls = maxIterations + 1 ∧
    (completionModel lm sb systemPrompt rootPrompt true 0 1 maxIterations
        prompt).response =
      lm (histFrom lm sb rootPrompt 1 0
            (buildRlmSystemPrompt systemPrompt (buildQueryMetadata prompt)) 0
            maxIterations ++ [⟨.assistant, FINAL_REQUEST_TEXT⟩]) := by
  have h01 : ¬ (1 ≤ 0) := by omega
  have hcm : completionModel lm sb systemPrompt rootPrompt true 0 1 maxIterations
      prompt = runLoop lm sb rootPrompt true 1 0
        (buildRlmSystemPrompt systemPrompt (buildQueryMetadata prompt)) 0
        maxIterations := by
    simp [completionModel, if_neg h01]
  rw [hcm, runLoop_no_marker lm sb rootPrompt true 1 0 H maxIterations _ 0]
  refine ⟨?_, rfl, rfl⟩
  simp [List.count_replicate_self]

/-- **C1 witness**: the never-terminating LM oracle with budget 2. -/
theorem claim_C1_witness :
    (∀ msgs, findFinalAnswer (lmNothing msgs) (some sbEmpty) = none) ∧
    ((completionModel lmNothing sbEmpty "SYS" none true 0 1 2
        (.pstr "ctx")).events.count LogEvent.iterationRec = 2 + 1 ∧
     (completionModel lmNothing sbEmpty "SYS" none true 0 1 2
        (.pstr "ctx")).lmCalls = 2 + 1 ∧
     (completionModel lmNothing sbEmpty "SYS" none true 0 1 2
        (.pstr "ctx")).response =
       lmNothing (histFrom lmNothing sbEmpty none 1 0
           (buildRlmSystemPrompt "SYS" (buildQueryMetadata (.pstr "ctx"))) 0 2 ++
         [⟨.assistant, FINAL_REQUEST_TEXT⟩])) :=
  ⟨fun _ => rfl,
   claim_C1 lmNothing sbEmpty "SYS" none 2 (.pstr "ctx") (fun _ => rfl)⟩

/-- **C1 counterexample.**  With `max_iterations = 1`, a logger, and an LM
that never emits a marker, *two* iteration-typed records are emitted (the
loop turn plus the record `defaultAnswer` hands to `RLMLogger.log`),
refuting "exactly max_iterations iteration records". -/
theorem claim_C1_cex :
    (completionModel lmNothing sbEmpty "SYS" none true 0 1 1 (.pstr "ctx")).events =
      [LogEvent.iterationRec, LogEvent.iterationRec] := rfl

/- ─────────────────────────── theorems: C7 ─────────────────────────────── -/

theorem startsWithL_self_append (p t : List Char) : startsWithL p (p ++ t) = true := by
  induction p with
  | nil => rfl
  | cons c cs ih => simp [startsWithL, ih]

theorem argScanVar_complete (v rest : List Char)
    (hv : ∀ c ∈ v, c ≠ ')' ∧ c ≠ '\n') :
    argScanVar (v ++ ')' :: rest) = some v := by
  induction v with
  | nil => simp [argScanVar]
  | cons c cs ih =>
    have hc := hv c (List.mem_cons_self c cs)
    have hcs : ∀ x ∈ cs, x ≠ ')' ∧ x ≠ '\n' :=
      fun x hx => hv x (List.mem_cons_of_mem c hx)
    show argScanVar (c :: (cs ++ ')' :: rest)) = some (c :: cs)
    simp only [argScanVar, if_neg hc.1, if_neg hc.2, ih hcs]
    rfl

theorem takeWhile_ws_append_stop (w : List Char) (c : Char) (rest : List Char)
    (hw : ∀ x ∈ w, isWsChar x = true) (hc : isWsChar c = false) :
    (w ++ c :: rest).takeWhile isWsChar = w := by
  induction w with
  | nil => simp [List.takeWhile, hc]
  | cons x xs ih =>
    have hx := hw x (List.mem_cons_self x xs)
    have hxs : ∀ y ∈ xs, isWsChar y = true :=
      fun y hy => hw y (List.mem_cons_of_mem x hy)
    simp [List.takeWhile, hx, ih hxs]

theorem tryVarMarker_hit (v post : List Char)
    (hv : ∀ c ∈ v, c ≠ ')' ∧ c ≠ '\n') :
    tryVarMarker (FINALVARPAT ++ (v ++ ')' :: post)) = some v := by
  unfold tryVarMarker
  rw [if_pos (startsWithL_self_append FINALVARPAT _)]
  have h10 : FINALVARPAT.length = 10 := rfl
  rw [show (10 : Nat) = FINALVARPAT.length from rfl, List.drop_left]
  exact argScanVar_complete v post hv

theorem tryVarAt_marker (w v post : List Char)
    (hw : ∀ x ∈ w, isWsChar x = true)
    (hv : ∀ c ∈ v, c ≠ ')' ∧ c ≠ '\n') :
    tryVarAt (w ++ (FINALVARPAT ++ (v ++ ')' :: post))) = some v := by
  have hsplit : FINALVARPAT ++ (v ++ ')' :: post) =
      'F' :: ("INAL_VAR(".toList ++ (v ++ ')' :: post)) := rfl
  have hrun : (w ++ (FINALVARPAT ++ (v ++ ')' :: post))).takeWhile isWsChar = w := by
    rw [hsplit]
    exact takeWhile_ws_append_stop w 'F' _ hw (by decide)
  unfold tryVarAt
  rw [hrun]
  simp only [tryVarLs]
  rw [List.drop_left, tryVarMarker_hit v post hv]

theorem findVarAux_reach :
    ∀ (pre : List Char) (fuel : Nat) (a : Bool) (M : List Char),
      pre.length < fuel →
      M ≠ [] →
      (pre = [] → a = true) →
      (pre ≠ [] → pre.getLast? = some '\n') →
      (tryVarAt M).isSome →
      (findVarAux fuel (pre ++ M) a).isSome := by
  intro pre
  induction pre with
  | nil =>
    intro fuel a M hf hM ha _ htry
    cases fuel with
    | zero => omega
    | succ f =>
      cases M with
      | nil => exact absurd rfl hM
      | cons c cs =>
        rw [ha rfl]
        rcases Option.isSome_iff_exists.mp htry with ⟨v, hv⟩
        simp only [List.nil_append, findVarAux, if_pos rfl, hv]
        rfl
  | cons c pre' ih =>
    intro fuel a M hf hM ha hlast htry
    cases fuel with
    | zero => simp at hf
    | succ f =>
      simp only [List.cons_append, findVarAux]
      cases htry0 : (if a = true then tryVarAt (c :: (pre' ++ M)) else none) with
      | some v => simp
      | none =>
        simp only []
        refine ih f _ M ?_ hM ?_ ?_ htry
        · simp at hf
          omega
        · intro hpre'
          subst hpre'
          have : (c :: ([] : List Char)).getLast? = some c := rfl
          have hcn := hlast (by simp)
          rw [this] at hcn
          cases hcn
          simp
        · intro hpre'
          have hcn := hlast (by simp)
          cases pre' with
          | nil => exact absurd rfl hpre'
          | cons d rest =>
            rw [List.getLast?_cons_cons] at hcn
            exact hcn

/-- **C7** (confirmed).  When the response text contains a line whose
leading non-whitespace is `FINAL_VAR(...)` (with well-formed argument) and
also a line matching `FINAL(...)`, `findFinalAnswer` selects the FINAL_VAR
branch: its result equals `finalVarBranch` on the first captured argument,
and the FINAL pattern is never consulted. -/
theorem claim_C7 (text pre w v post q y r : String)
    (sandbox : Option (String → REPLResult))
    (hpre : pre = "" ∨ pre.toList.getLast? = some '\n')
    (hw : ∀ x ∈ w.toList, isWsChar x = true)
    (hv : ∀ c ∈ v.toList, c ≠ ')' ∧ c ≠ '\n')
    (htext : text = pre ++ w ++ "FINAL_VAR(" ++ v ++ ")" ++ post)
    (_hfinal : text = q ++ "FINAL(" ++ y ++ ")" ++ r) :
    ∃ arg, finalVarMatch text = some arg ∧
      findFinalAnswer text sandbox = finalVarBranch arg sandbox := by
  have htl : text.toList =
      pre.toList ++ (w.toList ++ (FINALVARPAT ++ (v.toList ++ ')' :: post.toList))) := by
    rw [htext]
    simp only [toList_append, FINALVARPAT, List.append_assoc]
    have hparen : (")" : String).toList = [')'] := rfl
    rw [hparen]
    simp
  have hM : (tryVarAt (w.toList ++ (FINALVARPAT ++ (v.toList ++ ')' :: post.toList)))).isSome := by
    rw [tryVarAt_marker w.toList v.toList post.toList hw hv]
    rfl
  have hMne : w.toList ++ (FINALVARPAT ++ (v.toList ++ ')' :: post.toList)) ≠ [] := by
    cases hwl : w.toList with
    | nil => simp [FINALVARPAT]
    | cons x xs => simp
  have hf : pre.toList.length < text.toList.length + 1 := by
    rw [htl, List.length_append]
    omega
  have hreach := findVarAux_reach pre.toList (text.toList.length + 1) true
    (w.toList ++ (FINALVARPAT ++ (v.toList ++ ')' :: post.toList))) hf hMne
    (fun _ => rfl)
    (fun hne => by
      rcases hpre with hpe | hpl
      · rw [hpe] at hne
        exact absurd rfl hne
      · exact hpl)
    hM
  rw [← htl] at hreach
  rcases Option.isSome_iff_exists.mp hreach with ⟨l, hl⟩
  have hmatch : finalVarMatch text = some (listToStr l) := by
    unfold finalVarMatch
    rw [hl]
    rfl
  refine ⟨listToStr l, hmatch, ?_⟩
  unfold findFinalAnswer
  rw [hmatch]

/-- **C7 witness**: the response `"FINAL_VAR(x)\nFINAL(y)"` containing both
markers; the FINAL_VAR branch is selected. -/
theorem claim_C7_witness :
    (("FINAL_VAR(x)\nFINAL(y)" : String) =
      "" ++ "" ++ "FINAL_VAR(" ++ "x" ++ ")" ++ "\nFINAL(y)") ∧
    (("FINAL_VAR(x)\nFINAL(y)" : String) =
      "FINAL_VAR(x)\n" ++ "FINAL(" ++ "y" ++ ")" ++ "") ∧
    ∃ arg, finalVarMatch "FINAL_VAR(x)\nFINAL(y)" = some arg ∧
      findFinalAnswer "FINAL_VAR(x)\nFINAL(y)" (some sbEmpty) =
        finalVarBranch arg (some sbEmpty) := by
  refine ⟨by decide, by decide, ?_⟩
  exact claim_C7 "FINAL_VAR(x)\nFINAL(y)" "" "" "x" "\nFINAL(y)"
    "FINAL_VAR(x)\n" "y" "" (some sbEmpty)
    (Or.inl rfl)
    (fun x hx => absurd hx (List.not_mem_nil x))
    (by
      intro c hc
      have hxl : ("x" : String).toList = ['x'] := rfl
      rw [hxl, List.mem_singleton] at hc
      subst hc
      exact ⟨by decide, by decide⟩)
    (by decide)
    (by decide)

/- ─────────────────────────── theorems: C6 ─────────────────────────────── -/

theorem startsWithL_append_left (p u v : List Char) (h : p.length ≤ u.length) :
    startsWithL p (u ++ v) = startsWithL p u := by
  induction p generalizing u with
  | nil => simp [startsWithL]
  | cons c cs ih =>
    cases u with
    | nil => simp at h
    | cons x xs =>
      simp only [List.cons_append, startsWithL]
      show (decide (c = x) && startsWithL cs (xs ++ v)) =
        (decide (c = x) && startsWithL cs xs)
      rw [ih xs (by simpa using h)]

theorem findSubAux_some (pat : List Char) :
    ∀ (hay : List Char) (i k : Nat),
      (∀ q < k, startsWithL pat (hay.drop q) = false) →
      startsWithL pat (hay.drop k) = true →
      findSubAux pat hay i = some (i + k) := by
  intro hay
  induction hay with
  | nil =>
    intro i k hq hk
    cases k with
    | zero =>
      simp only [List.drop_nil] at hk
      simp [findSubAux, hk]
    | succ k' =>
      have h0 := hq 0 (by omega)
      simp only [List.drop_nil] at hk h0
      rw [h0] at hk
      cases hk
  | cons c cs ih =>
    intro i k hq hk
    cases k with
    | zero =>
      simp only [List.drop_zero] at hk
      simp [findSubAux, hk]
    | succ k' =>
      have h0 : startsWithL pat (c :: cs) = false := by
        have := hq 0 (by omega)
        simpa using this
      rw [show findSubAux pat (c :: cs) i =
        (if startsWithL pat (c :: cs) then some i else findSubAux pat cs (i + 1))
        from rfl]
      rw [if_neg (by simp [h0])]
      rw [ih (i + 1) k'
        (fun q hq' => by
          have := hq (q + 1) (by omega)
          simpa using this)
        (by simpa using hk)]
      congr 1
      omega

theorem findSub_eq (pat hay : List Char) (k : Nat)
    (hq : ∀ q < k, startsWithL pat (hay.drop q) = false)
    (hk : startsWithL pat (hay.drop k) = true) :
    findSub pat hay = some k := by
  have := findSubAux_some pat hay 0 k hq hk
  simpa [findSub] using this

theorem findSubAux_none_all (pat : List Char) :
    ∀ (hay : List Char) (i : Nat), findSubAux pat hay i = none →
      ∀ k, startsWithL pat (hay.drop k) = false := by
  intro hay
  induction hay with
  | nil =>
    intro i h k
    simp only [List.drop_nil]
    by_cases hp : startsWithL pat [] = true
    · simp [findSubAux, hp] at h
    · simpa using hp
  | cons c cs ih =>
    intro i h k
    by_cases hp : startsWithL pat (c :: cs) = true
    · rw [show findSubAux pat (c :: cs) i =
        (if startsWithL pat (c :: cs) then some i else findSubAux pat cs (i + 1))
        from rfl, if_pos hp] at h
      cases h
    · cases k with
      | zero => simpa using hp
      | succ k' =>
        rw [List.drop_succ_cons]
        refine ih (i + 1) ?_ k'
        rw [show findSubAux pat (c :: cs) i =
          (if startsWithL pat (c :: cs) then some i else findSubAux pat cs (i + 1))
          from rfl, if_neg hp] at h
        exact h

theorem noSub_all (pat hay : List Char) (h : findSub pat hay = none) :
    ∀ k, startsWithL pat (hay.drop k) = false :=
  findSubAux_none_all pat hay 0 h

/-- The backtick character (kept out of character literals). -/
def BQ : Char := Char.ofNat 96

theorem CLOSEPAT_chars : CLOSEPAT = ['\n', BQ, BQ, BQ] := by decide

theorem OPENPAT_chars : OPENPAT = [BQ, BQ, BQ, 'r', 'e', 'p', 'l'] := by decide

theorem TRIPLEPAT_chars : TRIPLEPAT = [BQ, BQ, BQ] := by decide

/-- `"\n```"` has no proper self-overlap, so an occurrence cannot span the
boundary between clean content and the closing fence. -/
theorem close_no_span (s : List Char)
    (hs : ∀ k, startsWithL CLOSEPAT (s.drop k) = false)
    (t : List Char) (p : Nat) (hp : p < s.length) :
    startsWithL CLOSEPAT ((s.drop p) ++ (CLOSEPAT ++ t)) = false := by
  rcases Nat.lt_or_ge (s.length - p) 4 with hm | hm
  · have hul : (s.drop p).length = s.length - p := by
      rw [List.length_drop]
    have h123 : (s.drop p).length = 1 ∨ (s.drop p).length = 2 ∨
        (s.drop p).length = 3 := by omega
    have hb : decide (BQ = '\n') = false := by decide
    rcases h123 with h | h | h
    · rcases List.length_eq_one.mp h with ⟨a, ha⟩
      rw [ha, CLOSEPAT_chars]
      simp only [List.cons_append, List.nil_append, startsWithL, hb]
      simp
    · rcases List.length_eq_two.mp h with ⟨a, b, hab⟩
      rw [hab, CLOSEPAT_chars]
      simp only [List.cons_append, List.nil_append, startsWithL, hb]
      simp
    · rcases List.length_eq_three.mp h with ⟨a, b, c, habc⟩
      rw [habc, CLOSEPAT_chars]
      simp only [List.cons_append, List.nil_append, startsWithL, hb]
      simp
  · rw [startsWithL_append_left]
    · exact hs p
    · rw [List.length_drop]
      have h4 : CLOSEPAT.length = 4 := rfl
      omega

/-- `"```repl"` has no self-overlap either: no occurrence of the opener can
start strictly inside triple-backtick-free noise and span into a fence. -/
theorem open_no_span (n : List Char)
    (hn : ∀ k, startsWithL TRIPLEPAT (n.drop k) = false)
    (hne : n ≠ []) (t : List Char) :
    startsWithL OPENPAT (n ++ (BQ :: BQ :: BQ :: 'r' :: t)) = false := by
  have hrb : decide ('r' = BQ) = false := by decide
  cases n with
  | nil => exact absurd rfl hne
  | cons a n' =>
    cases n' with
    | nil =>
      rw [OPENPAT_chars]
      simp only [List.cons_append, List.nil_append, startsWithL, hrb]
      simp
    | cons b n'' =>
      cases n'' with
      | nil =>
        rw [OPENPAT_chars]
        simp only [List.cons_append, List.nil_append, startsWithL, hrb]
        simp
      | cons c rest =>
        by_cases h : startsWithL OPENPAT
            ((a :: b :: c :: rest) ++ (BQ :: BQ :: BQ :: 'r' :: t)) = true
        · exfalso
          rw [OPENPAT_chars] at h
          simp only [List.cons_append, startsWithL, Bool.and_eq_true,
            decide_eq_true_eq] at h
          obtain ⟨ha, hb', hc, _⟩ := h
          have h0 := hn 0
          simp only [List.drop_zero, TRIPLEPAT_chars] at h0
          rw [← ha, ← hb', ← hc] at h0
          simp [startsWithL] at h0
        · simpa using h

theorem open_implies_triple (s : List Char) (h : startsWithL OPENPAT s = true) :
    startsWithL TRIPLEPAT s = true := by
  rw [OPENPAT_chars] at h
  rw [TRIPLEPAT_chars]
  cases s with
  | nil => simp [startsWithL] at h
  | cons a s1 =>
    cases s1 with
    | nil => simp [startsWithL] at h
    | cons b s2 =>
      cases s2 with
      | nil => simp [startsWithL] at h
      | cons c s3 =>
        simp only [startsWithL, Bool.and_eq_true, decide_eq_true_eq] at h ⊢
        exact ⟨h.1, h.2.1, h.2.2.1, by simp [startsWithL]⟩

/-- The leftmost `"\n```"` in clean-content-plus-closer is the closer. -/
theorem findSub_close_at (u t : List Char)
    (hu : ∀ k, startsWithL CLOSEPAT (u.drop k) = false) :
    findSub CLOSEPAT (u ++ (CLOSEPAT ++ t)) = some u.length := by
  apply findSub_eq
  · intro q hq
    have hdrop : (u ++ (CLOSEPAT ++ t)).drop q = (u.drop q) ++ (CLOSEPAT ++ t) := by
      rw [List.drop_append_eq_append_drop]
      have hz : q - u.length = 0 := by omega
      rw [hz, List.drop_zero]
    rw [hdrop]
    exact close_no_span u hu t q hq
  · rw [List.drop_left]
    exact startsWithL_self_append CLOSEPAT t

theorem pickNl_sound (rest : List Char) :
    ∀ (n j : Nat), pickNl rest n = some j →
      j < n ∧ (findSub CLOSEPAT (rest.drop (j + 1))).isSome := by
  intro n
  induction n with
  | zero =>
    intro j h
    simp [pickNl] at h
  | succ m ih =>
    intro j h
    rw [show pickNl rest (m + 1) =
      (if ((rest[m]? == some '\n') &&
          (findSub CLOSEPAT (rest.drop (m + 1))).isSome) then some m
        else pickNl rest m) from rfl] at h
    by_cases hc : ((rest[m]? == some '\n') &&
        (findSub CLOSEPAT (rest.drop (m + 1))).isSome) = true
    · rw [if_pos hc] at h
      injection h with h'
      subst h'
      rw [Bool.and_eq_true] at hc
      exact ⟨by omega, hc.2⟩
    · rw [if_neg hc] at h
      have := ih j h
      exact ⟨by omega, this.2⟩

theorem pickNl_isSome (rest : List Char) (h0 : rest[0]? = some '\n')
    (hcl : (findSub CLOSEPAT (rest.drop 1)).isSome = true) :
    ∀ n, 1 ≤ n → (pickNl rest n).isSome = true := by
  intro n
  induction n with
  | zero => intro h; omega
  | succ m ih =>
    intro _
    rw [show pickNl rest (m + 1) =
      (if ((rest[m]? == some '\n') &&
          (findSub CLOSEPAT (rest.drop (m + 1))).isSome) then some m
        else pickNl rest m) from rfl]
    by_cases hc : ((rest[m]? == some '\n') &&
        (findSub CLOSEPAT (rest.drop (m + 1))).isSome) = true
    · rw [if_pos hc]
      rfl
    · rw [if_neg hc]
      cases m with
      | zero =>
        exfalso
        apply hc
        rw [Bool.and_eq_true]
        exact ⟨by rw [h0]; rfl, hcl⟩
      | succ m' => exact ih (by omega)

theorem takeWhile_append_of_not_all (c X : List Char)
    (h : ∃ x ∈ c, isWsChar x = false) :
    (c ++ X).takeWhile isWsChar = c.takeWhile isWsChar := by
  induction c with
  | nil =>
    rcases h with ⟨x, hx, _⟩
    cases hx
  | cons a as ih =>
    by_cases ha : isWsChar a = true
    · simp only [List.cons_append, List.takeWhile_cons, ha]
      rw [ih ?_]
      rcases h with ⟨x, hx, hxw⟩
      rcases List.mem_cons.mp hx with rfl | hx'
      · rw [ha] at hxw
        cases hxw
      · exact ⟨x, hx', hxw⟩
    · have ha' : isWsChar a = false := by simpa using ha
      simp [List.takeWhile_cons, ha']

theorem length_takeWhile_lt (c : List Char) (h : ∃ x ∈ c, isWsChar x = false) :
    (c.takeWhile isWsChar).length < c.length := by
  induction c with
  | nil =>
    rcases h with ⟨x, hx, _⟩
    cases hx
  | cons a as ih =>
    by_cases ha : isWsChar a = true
    · simp only [List.takeWhile_cons, ha, List.length_cons]
      have : (as.takeWhile isWsChar).length < as.length := by
        apply ih
        rcases h with ⟨x, hx, hxw⟩
        rcases List.mem_cons.mp hx with rfl | hx'
        · rw [ha] at hxw
          cases hxw
        · exact ⟨x, hx', hxw⟩
      simpa using this
    · have ha' : isWsChar a = false := by simpa using ha
      simp [List.takeWhile_cons, ha']

theorem take_all_ws (c : List Char) (j : Nat)
    (hj : j ≤ (c.takeWhile isWsChar).length) :
    ∀ x ∈ c.take j, isWsChar x = true := by
  intro x hx
  have hpref : c.take j = (c.takeWhile isWsChar).take j := by
    conv_lhs => rw [← List.takeWhile_append_dropWhile (p := isWsChar) (l := c)]
    rw [List.take_append_of_le_length hj]
  rw [hpref] at hx
  exact List.mem_takeWhile_imp (List.take_subset j _ hx)

theorem dropWhile_drop_ws (c : List Char) :
    ∀ j, j ≤ c.length → (∀ x ∈ c.take j, isWsChar x = true) →
      (c.drop j).dropWhile isWsChar = c.dropWhile isWsChar := by
  induction c with
  | nil =>
    intro j hj _
    have : j = 0 := by simpa using hj
    subst this
    rfl
  | cons a as ih =>
    intro j hj hws
    cases j with
    | zero => rfl
    | succ j' =>
      have ha : isWsChar a = true := by
        apply hws a
        simp [List.take]
      rw [List.drop_succ_cons,
        ih j' (by simpa using hj)
          (fun x hx => hws x (by simp only [List.take]; exact List.mem_cons_of_mem a hx))]
      simp [List.dropWhile_cons, ha]

theorem trimL_drop_ws (c : List Char) (j : Nat) (hj : j ≤ c.length)
    (hws : ∀ x ∈ c.take j, isWsChar x = true) :
    trimL (c.drop j) = trimL c := by
  unfold trimL
  rw [dropWhile_drop_ws c j hj hws]

/-- Matching the fence tail at a fence position: the match consumes a
(possibly empty) whitespace prefix of the content and closes at the real
closing fence, returning the remaining content and the input after the
fence. -/
theorem matchAt_fence (c T : List Char)
    (hc : ∀ k, startsWithL CLOSEPAT (c.drop k) = false)
    (hnw : ∃ x ∈ c, isWsChar x = false) :
    ∃ j, j ≤ (c.takeWhile isWsChar).length ∧
      matchAt ('\n' :: (c ++ (CLOSEPAT ++ T))) = some (c.drop j, T) := by
  have hwsnl : isWsChar '\n' = true := rfl
  have hrun : (('\n' : Char) :: (c ++ (CLOSEPAT ++ T))).takeWhile isWsChar =
      '\n' :: (c.takeWhile isWsChar) := by
    rw [List.takeWhile_cons, if_pos hwsnl, takeWhile_append_of_not_all c _ hnw]
  have hb : findSub CLOSEPAT (c ++ (CLOSEPAT ++ T)) = some c.length :=
    findSub_close_at c T hc
  have hpick : (pickNl ('\n' :: (c ++ (CLOSEPAT ++ T)))
      ((('\n' : Char) :: (c ++ (CLOSEPAT ++ T))).takeWhile isWsChar).length).isSome = true := by
    apply pickNl_isSome
    · simp
    · show (findSub CLOSEPAT (c ++ (CLOSEPAT ++ T))).isSome = true
      rw [hb]
      rfl
    · rw [hrun]
      simp
  rcases Option.isSome_iff_exists.mp hpick with ⟨j, hjp⟩
  have hjs := pickNl_sound _ _ j hjp
  have hjle : j ≤ (c.takeWhile isWsChar).length := by
    have := hjs.1
    rw [hrun] at this
    simp only [List.length_cons] at this
    omega
  have hjc : j ≤ c.length :=
    le_trans hjle (List.takeWhile_prefix (p := isWsChar)).length_le
  refine ⟨j, hjle, ?_⟩
  unfold matchAt
  rw [hjp]
  have hafter : (('\n' : Char) :: (c ++ (CLOSEPAT ++ T))).drop (j + 1) =
      (c.drop j) ++ (CLOSEPAT ++ T) := by
    rw [List.drop_succ_cons, List.drop_append_eq_append_drop]
    have hz : j - c.length = 0 := by omega
    rw [hz, List.drop_zero]
  have hfind : findSub CLOSEPAT ((c.drop j) ++ (CLOSEPAT ++ T)) =
      some (c.drop j).length := by
    apply findSub_close_at
    intro k
    rw [List.drop_drop]
    exact hc _
  simp only [hafter, hfind]
  have htake : ((c.drop j) ++ (CLOSEPAT ++ T)).take (c.drop j).length = c.drop j :=
    List.take_left _ _
  have hdrop4 : ((c.drop j) ++ (CLOSEPAT ++ T)).drop ((c.drop j).length + 4) = T := by
    rw [List.drop_append_eq_append_drop,
      List.drop_of_length_le (by omega)]
    have h4 : (c.drop j).length + 4 - (c.drop j).length = 4 := by omega
    rw [h4, List.nil_append,
      show (4 : Nat) = CLOSEPAT.length from rfl, List.drop_left]
  rw [htake, hdrop4]

/-- A well-formed fence: `"```repl\n"`, the inner content, `"\n```"`. -/
def fenceL (c : List Char) : List Char := OPENPAT ++ ('\n' :: (c ++ CLOSEPAT))

/-- Interleave noise and fences: `n₀ ++ fence c₁ ++ n₁ ++ … ++ fence c_k ++ n_k`. -/
def assembleBlocks : List (List Char × List Char) → List Char → List Char
  | [], tail => tail
  | (n, c) :: rest, tail => n ++ (fenceL c ++ assembleBlocks rest tail)

theorem fenceL_length (c : List Char) : (fenceL c).length = c.length + 12 := by
  unfold fenceL
  rw [List.length_append, List.length_cons, List.length_append,
    show OPENPAT.length = 7 from rfl, show CLOSEPAT.length = 4 from rfl]
  omega

theorem scan_noise_only (n : List Char)
    (hn : ∀ k, startsWithL TRIPLEPAT (n.drop k) = false) :
    ∀ f, scanBlocks f n = [] := by
  induction n with
  | nil =>
    intro f
    cases f <;> rfl
  | cons c cs ih =>
    intro f
    cases f with
    | zero => rfl
    | succ f' =>
      simp only [scanBlocks]
      rw [if_neg ?_]
      · exact ih (fun k => by have := hn (k + 1); simpa using this) f'
      · intro hcontra
        have h3 := open_implies_triple _ hcontra
        have h0 := hn 0
        simp only [List.drop_zero] at h0
        rw [h0] at h3
        cases h3

theorem scan_skip_noise (n : List Char)
    (hn : ∀ k, startsWithL TRIPLEPAT (n.drop k) = false) :
    ∀ (f : Nat) (t : List Char),
      scanBlocks (f + n.length) (n ++ (BQ :: BQ :: BQ :: 'r' :: t)) =
        scanBlocks f (BQ :: BQ :: BQ :: 'r' :: t) := by
  induction n with
  | nil =>
    intro f t
    simp
  | cons a n' ih =>
    intro f t
    have hfalse : startsWithL OPENPAT
        (a :: (n' ++ (BQ :: BQ :: BQ :: 'r' :: t))) = false :=
      open_no_span (a :: n') hn (by simp) t
    have hlen : f + (a :: n').length = (f + n'.length) + 1 := by
      rw [List.length_cons]
      omega
    rw [hlen]
    show scanBlocks ((f + n'.length) + 1)
      (a :: (n' ++ (BQ :: BQ :: BQ :: 'r' :: t))) = _
    simp only [scanBlocks]
    rw [if_neg (by simp [hfalse])]
    exact ih (fun k => by have := hn (k + 1); simpa using this) f t

theorem scan_fence_step (c A : List Char) (f : Nat)
    (hc : ∀ k, startsWithL CLOSEPAT (c.drop k) = false)
    (hnw : ∃ x ∈ c, isWsChar x = false) :
    scanBlocks (f + 1) (fenceL c ++ A) = trimL c :: scanBlocks f A := by
  have hshape : fenceL c ++ A =
      BQ :: BQ :: BQ :: 'r' :: 'e' :: 'p' :: 'l' ::
        ('\n' :: (c ++ (CLOSEPAT ++ A))) := by
    unfold fenceL
    rw [OPENPAT_chars]
    simp [List.append_assoc]
  have hopen : startsWithL OPENPAT (BQ :: BQ :: BQ :: 'r' :: 'e' :: 'p' :: 'l' ::
      ('\n' :: (c ++ (CLOSEPAT ++ A)))) = true := by
    have hsh2 : (BQ :: BQ :: BQ :: 'r' :: 'e' :: 'p' :: 'l' ::
        ('\n' :: (c ++ (CLOSEPAT ++ A)))) =
        OPENPAT ++ ('\n' :: (c ++ (CLOSEPAT ++ A))) := by
      rw [OPENPAT_chars]
      rfl
    rw [hsh2]
    exact startsWithL_self_append _ _
  have hdrop7 : (BQ :: BQ :: BQ :: 'r' :: 'e' :: 'p' :: 'l' ::
      ('\n' :: (c ++ (CLOSEPAT ++ A)))).drop 7 =
      '\n' :: (c ++ (CLOSEPAT ++ A)) := rfl
  rw [hshape]
  simp only [scanBlocks]
  rw [if_pos hopen, hdrop7]
  rcases matchAt_fence c A hc hnw with ⟨j, hjle, hm⟩
  rw [hm]
  have hjc : j ≤ c.length :=
    le_trans hjle (List.takeWhile_prefix (p := isWsChar)).length_le
  show trimL (c.drop j) :: scanBlocks f A = trimL c :: scanBlocks f A
  rw [trimL_drop_ws c j hjc (take_all_ws c j hjle)]

theorem scan_assemble :
    ∀ (ps : List (List Char × List Char)) (tail : List Char) (f : Nat),
      (∀ p ∈ ps, ∀ k, startsWithL TRIPLEPAT (p.1.drop k) = false) →
      (∀ p ∈ ps, (∀ k, startsWithL CLOSEPAT (p.2.drop k) = false) ∧
        ∃ x ∈ p.2, isWsChar x = false) →
      (∀ k, startsWithL TRIPLEPAT (tail.drop k) = false) →
      (assembleBlocks ps tail).length ≤ f →
      scanBlocks f (assembleBlocks ps tail) = ps.map (fun p => trimL p.2) := by
  intro ps
  induction ps with
  | nil =>
    intro tail f _ _ htail _
    simp only [assembleBlocks, List.map_nil]
    exact scan_noise_only tail htail f
  | cons p ps' ih =>
    obtain ⟨n, c⟩ := p
    intro tail f hnoise hcont htail hf
    have hnn : ∀ k, startsWithL TRIPLEPAT (n.drop k) = false :=
      fun k => hnoise (n, c) (List.mem_cons_self _ _) k
    have hcc := hcont (n, c) (List.mem_cons_self _ _)
    have hnoise' : ∀ p ∈ ps', ∀ k, startsWithL TRIPLEPAT (p.1.drop k) = false :=
      fun p hp => hnoise p (List.mem_cons_of_mem _ hp)
    have hcont' : ∀ p ∈ ps', (∀ k, startsWithL CLOSEPAT (p.2.drop k) = false) ∧
        ∃ x ∈ p.2, isWsChar x = false :=
      fun p hp => hcont p (List.mem_cons_of_mem _ hp)
    have hlen : (assembleBlocks ((n, c) :: ps') tail).length =
        n.length + ((fenceL c).length + (assembleBlocks ps' tail).length) := by
      simp [assembleBlocks, List.length_append]
    have hfl := fenceL_length c
    have hshape : fenceL c ++ assembleBlocks ps' tail =
        BQ :: BQ :: BQ :: 'r' :: ('e' :: 'p' :: 'l' ::
          ('\n' :: (c ++ (CLOSEPAT ++ assembleBlocks ps' tail)))) := by
      unfold fenceL
      rw [OPENPAT_chars]
      simp [List.append_assoc]
    have hf1 : f = (f - n.length) + n.length := by
      rw [hlen] at hf
      omega
    show scanBlocks f (n ++ (fenceL c ++ assembleBlocks ps' tail)) = _
    rw [hf1, hshape,
      scan_skip_noise n hnn (f - n.length)
        ('e' :: 'p' :: 'l' :: ('\n' :: (c ++ (CLOSEPAT ++ assembleBlocks ps' tail)))),
      ← hshape]
    have hf2 : f - n.length = ((f - n.length) - 1) + 1 := by
      rw [hlen] at hf
      omega
    rw [hf2, scan_fence_step c (assembleBlocks ps' tail) _ hcc.1 hcc.2,
      ih tail ((f - n.length) - 1) hnoise' hcont' htail (by rw [hlen] at hf; omega)]
    rfl

/-- **C6** (corrected).  For a text assembled from `k` well-formed
` ```repl `-fences — each inner content containing at least one
non-whitespace character and no `"\n```"` — interleaved with arbitrary
noise free of triple backticks, `findCodeBlocks` returns exactly `k`
strings, in source order, each the fence's inner content with outer
whitespace stripped.  (The non-whitespace-content proviso is necessary:
see the counterexample, where an all-whitespace fence merges with a later
fence.) -/
theorem claim_C6 (ps : List (List Char × List Char)) (tail : List Char)
    (hnoise : ∀ p ∈ ps, ∀ k, startsWithL TRIPLEPAT (p.1.drop k) = false)
    (hcont : ∀ p ∈ ps, (∀ k, startsWithL CLOSEPAT (p.2.drop k) = false) ∧
      ∃ x ∈ p.2, isWsChar x = false)
    (htail : ∀ k, startsWithL TRIPLEPAT (tail.drop k) = false) :
    findCodeBlocks (listToStr (assembleBlocks ps tail)) =
      ps.map (fun p => listToStr (trimL p.2)) := by
  unfold findCodeBlocks
  rw [toList_listToStr,
    scan_assemble ps tail _ hnoise hcont htail (le_refl _), List.map_map]
  rfl

/-- **C6 witness**: two fences with contents `"x1"` and `"q"`, noise
`"ab"`/`""`/`"z"`; extraction returns exactly the two trimmed contents. -/
theorem claim_C6_witness :
    (∀ p ∈ [("ab".toList, "x1".toList), (("" : String).toList, "q".toList)],
      ∀ k, startsWithL TRIPLEPAT (p.1.drop k) = false) ∧
    (∀ p ∈ [("ab".toList, "x1".toList), (("" : String).toList, "q".toList)],
      (∀ k, startsWithL CLOSEPAT (p.2.drop k) = false) ∧
      ∃ x ∈ p.2, isWsChar x = false) ∧
    (∀ k, startsWithL TRIPLEPAT (("z".toList : List Char).drop k) = false) ∧
    findCodeBlocks (listToStr (assembleBlocks
        [("ab".toList, "x1".toList), (("" : String).toList, "q".toList)]
        "z".toList)) =
      [("ab".toList, "x1".toList), (("" : String).toList, "q".toList)].map
        (fun p => listToStr (trimL p.2)) := by
  have h1 : ∀ p ∈ [("ab".toList, "x1".toList), (("" : String).toList, "q".toList)],
      ∀ k, startsWithL TRIPLEPAT (p.1.drop k) = false := by
    intro p hp k
    rcases List.mem_cons.mp hp with rfl | hp'
    · exact noSub_all _ _ (by rfl) k
    · rcases List.mem_cons.mp hp' with rfl | hp''
      · exact noSub_all _ _ (by rfl) k
      · cases hp''
  have h2 : ∀ p ∈ [("ab".toList, "x1".toList), (("" : String).toList, "q".toList)],
      (∀ k, startsWithL CLOSEPAT (p.2.drop k) = false) ∧
      ∃ x ∈ p.2, isWsChar x = false := by
    intro p hp
    rcases List.mem_cons.mp hp with rfl | hp'
    · exact ⟨fun k => noSub_all _ _ (by rfl) k, ⟨'x', by decide, rfl⟩⟩
    · rcases List.mem_cons.mp hp' with rfl | hp''
      · exact ⟨fun k => noSub_all _ _ (by rfl) k, ⟨'q', by decide, rfl⟩⟩
      · cases hp''
  have h3 : ∀ k, startsWithL TRIPLEPAT (("z".toList : List Char).drop k) = false :=
    fun k => noSub_all _ _ (by rfl) k
  exact ⟨h1, h2, h3, claim_C6 _ _ h1 h2 h3⟩

/-- **C6 counterexample.**  The text
`"```repl\n\n```x```repl\nq\n```"` contains two well-formed fences (inner
contents `""` and `"q"`) and the non-fenced noise `"x"`, yet
`findCodeBlocks` returns a single string: the greedy `\s*` of the pattern
absorbs the empty content and the first closing fence's newline, letting
the lazy group run to the second fence's closer. -/
theorem claim_C6_cex :
    ("```repl\n\n```x```repl\nq\n```" : String).toList =
      assembleBlocks [(([] : List Char), ([] : List Char)), (['x'], ['q'])] [] ∧
    findCodeBlocks "```repl\n\n```x```repl\nq\n```" = ["```x```repl\nq"] ∧
    (findCodeBlocks "```repl\n\n```x```repl\nq\n```").length = 1 := by
  refine ⟨by decide, by decide, by decide⟩

end RLMTS
